import Mathlib

/-!
# Verification of UseCaseDiagramGen (`src/UseCaseCreator.py`)

Shallow embedding of the core of `UseCaseCreator.py`:

* the line-oriented parser inside `generate_use_case_diagram` (lines 164-173),
* the layout algorithm `calculate_tree_positions` (lines 70-148), including the
  networkx calls `DiGraph.add_edges_from` and `single_source_shortest_path_length`,
* the dynamic axis-limit computation of `generate_use_case_diagram` (lines 210-213),
  which calls Python `min`/`max` on the coordinate lists and raises `ValueError`
  on an empty sequence.

Modelling conventions:

* Python `str` values are Lean `String`s; all string primitives used by the code
  (`strip`, `split`, `in`) are re-implemented by structural recursion on `List Char`
  so that they compute by kernel reduction.  `str.split(sep)` for the three concrete
  separators that occur (`"\n"`, `"->"`, `"-->"`) is given one structural splitter each.
* Python floats are modelled as rationals (the layout only adds, subtracts,
  multiplies and halves small constants).
* Python dicts are insertion-ordered association lists with unique keys
  (`dictInsert` overwrites in place, otherwise appends), matching dict semantics.
* Python sets of strings have hash-dependent iteration order; the parser's node
  set is modelled as the insertion-ordered list of first occurrences, and claims
  sensitive to enumeration order quantify over permutations of that list.
* `networkx.single_source_shortest_path_length` is breadth-first search yielding
  `(node, distance)` pairs layer by layer; within a layer networkx iterates a
  Python set, modelled here as first-discovery order.
* Fallible code (`ValueError` on tuple unpacking and on `min`/`max` of an empty
  sequence) returns `Except String`.
-/

/-! ## Python string primitives (structural, kernel-computable) -/

/-- The characters stripped by Python's `str.strip()`. -/
def isPySpace (c : Char) : Bool :=
  c == ' ' || c == '\t' || c == '\n' || c == '\r' || c == '\x0b' || c == '\x0c'

/-- Strip leading and trailing whitespace from a character list. -/
def stripList (l : List Char) : List Char :=
  ((l.dropWhile isPySpace).reverse.dropWhile isPySpace).reverse

/-- Python `str.strip()`. -/
def pyStrip (s : String) : String := String.mk (stripList s.data)

/-- Python `str.split("\n")`. -/
def splitNl : List Char → List (List Char)
  | [] => [[]]
  | '\n' :: rest => [] :: splitNl rest
  | c :: rest =>
    match splitNl rest with
    | chunk :: chunks => (c :: chunk) :: chunks
    | [] => [[c]]

/-- Python `str.split("->")` (non-overlapping, leftmost-first). -/
def splitArrow : List Char → List (List Char)
  | [] => [[]]
  | '-' :: '>' :: rest => [] :: splitArrow rest
  | c :: rest =>
    match splitArrow rest with
    | chunk :: chunks => (c :: chunk) :: chunks
    | [] => [[c]]

/-- Python `str.split("-->")` (non-overlapping, leftmost-first). -/
def splitDash : List Char → List (List Char)
  | [] => [[]]
  | '-' :: '-' :: '>' :: rest => [] :: splitDash rest
  | c :: rest =>
    match splitDash rest with
    | chunk :: chunks => (c :: chunk) :: chunks
    | [] => [[c]]

/-- Does `l` start with `p`? -/
def startsWithL : List Char → List Char → Bool
  | _, [] => true
  | [], _ :: _ => false
  | c :: cs, p :: ps => c == p && startsWithL cs ps

/-- Python substring test `pat in l`. -/
def containsL (l pat : List Char) : Bool :=
  match l with
  | [] => pat.isEmpty
  | _ :: rest => startsWithL l pat || containsL rest pat

/-- `String.intercalate` for character lists (structural). -/
def joinWith (sep : List Char) : List (List Char) → List Char
  | [] => []
  | [c] => c
  | c :: cs => c ++ sep ++ joinWith sep cs

/-- Python lexicographic `<` on strings (by code point). -/
def charListLt : List Char → List Char → Bool
  | [], [] => false
  | [], _ :: _ => true
  | _ :: _, [] => false
  | a :: as, b :: bs => if a < b then true else if b < a then false else charListLt as bs

/-- Insert into an ascending list, after any equal elements (stable). -/
def insertSorted (a : String) : List String → List String
  | [] => [a]
  | b :: rest => if charListLt a.data b.data then a :: b :: rest else b :: insertSorted a rest

/-- Python `sorted()` on strings: stable ascending sort by code point. -/
def pySorted (l : List String) : List String :=
  l.foldl (fun acc a => insertSorted a acc) []

/-! ## Insertion-ordered sets and dicts -/

/-- Add to an insertion-ordered set of strings (Python `set.add`). -/
def insertOrdered (l : List String) (n : String) : List String :=
  if l.contains n then l else l ++ [n]

/-- Key membership in an association list. -/
def keyMem (d : List (String × α)) (k : String) : Bool := d.any (fun p => p.1 == k)

/-- Python `dict` lookup. -/
def dictGet? (d : List (String × α)) (k : String) : Option α :=
  (d.find? (fun p => p.1 == k)).map (fun p => p.2)

/-- Python `dict` assignment `d[k] = v`: overwrite in place (keys are unique in
every dict built here, so replacing the first occurrence is exact) or append. -/
def dictInsert : List (String × α) → String → α → List (String × α)
  | [], k, v => [(k, v)]
  | p :: rest, k, v => if p.1 == k then (k, v) :: rest else p :: dictInsert rest k v

/-- Python `dict.update(e)`. -/
def dictUpdate (d e : List (String × α)) : List (String × α) :=
  e.foldl (fun acc p => dictInsert acc p.1 p.2) d

/-! ## The parser (source lines 164-173)

```python
edges = []
nodes = set()
for line in ascii_description.strip().split("\n"):
    if "->" in line:
        source, target = map(str.strip, line.split("->"))
        edges.append((source, target))
        nodes.update([source, target])
    else:
        nodes.add(line.strip())
```

`"->" in line` holds iff `line.split("->")` has at least two parts; unpacking
`source, target = ...` raises `ValueError` when there are more than two.
-/

def parseGo : List String → List (String × String) → List String →
    Except String (List String × List (String × String))
  | nodes, edges, [] => .ok (nodes, edges)
  | nodes, edges, line :: rest =>
    if (splitArrow line.data).length = 1 then
      parseGo (insertOrdered nodes (pyStrip line)) edges rest
    else if (splitArrow line.data).length = 2 then
      parseGo
        (insertOrdered (insertOrdered nodes (pyStrip ⟨(splitArrow line.data).getD 0 []⟩))
          (pyStrip ⟨(splitArrow line.data).getD 1 []⟩))
        (edges ++ [(pyStrip ⟨(splitArrow line.data).getD 0 []⟩,
          pyStrip ⟨(splitArrow line.data).getD 1 []⟩)]) rest
    else .error "ValueError: too many values to unpack (expected 2)"

/-- The parser of `generate_use_case_diagram`: node set (insertion order) and edge list. -/
def parse (s : String) : Except String (List String × List (String × String)) :=
  parseGo [] [] ((splitNl (pyStrip s).data).map String.mk)

/-! ## Graph and breadth-first levels (networkx) -/

/-- Successor list of `u` in `nx.DiGraph().add_edges_from(edges)`:
targets of `u`, first-insertion order, deduplicated. -/
def successors (edges : List (String × String)) (u : String) : List String :=
  (edges.filterMap (fun e => if e.1 == u then some e.2 else none)).foldl insertOrdered []

/-- Python `v in tree`: `v` is an endpoint of some edge. -/
def inTree (edges : List (String × String)) (v : String) : Bool :=
  edges.any (fun e => e.1 == v || e.2 == v)

/-- One BFS with an output dict of `(node, distance)` pairs, layer by layer.
`frontier` is disjoint from the keys of `out`; fuel only bounds the number of layers. -/
def bfsAux (edges : List (String × String)) :
    Nat → List (String × Nat) → List String → Nat → List (String × Nat)
  | 0, out, _, _ => out
  | fuel + 1, out, frontier, level =>
    if frontier.isEmpty then out
    else
      let out' := out ++ frontier.map (fun v => (v, level))
      let next := ((frontier.foldl (fun acc v => acc ++ successors edges v) []).filter
        (fun v => !(keyMem out' v))).foldl insertOrdered []
      bfsAux edges fuel out' next (level + 1)

/-- All nodes BFS from `src` can ever visit: `src` and every edge target. -/
def graphUniverse (edges : List (String × String)) (src : String) : List String :=
  (src :: edges.map (fun e => e.2)).foldl insertOrdered []

/-- `nx.single_source_shortest_path_length(tree, src)` as an insertion-ordered dict. -/
def sssp (edges : List (String × String)) (src : String) : List (String × Nat) :=
  bfsAux edges ((graphUniverse edges src).length + 1) [] [src] 0

/-- Source lines 104-107 (and 130-133): successive `levels.update(...)` over the actors. -/
def mergedLevels (actorNodes : List String) (edges : List (String × String)) :
    List (String × Nat) :=
  actorNodes.foldl
    (fun levels a => if inTree edges a then dictUpdate levels (sssp edges a) else levels) []

/-! ## The position solver (source lines 70-148) -/

/-- Positions are 2D rational points (Python floats modelled exactly). -/
abbrev Pos := ℚ × ℚ

/-- Source line 86: `"<<" in node and ">>" in node`. -/
def isActor (n : String) : Bool :=
  containsL n.data "<<".data && containsL n.data ">>".data

/-- `for i, node in enumerate(lst): pos[node] = coord(i)`. -/
def placeRow (coord : Nat → Pos) :
    List (String × Pos) → List String → Nat → List (String × Pos)
  | pos, [], _ => pos
  | pos, nd :: rest, i => placeRow coord (dictInsert pos nd (coord i)) rest (i + 1)

/-- `grouped_nodes.setdefault(level, []).append(node)`: append to the (unique)
entry for `level`, or create it at the end. -/
def appendGroup : List (Nat × List String) → Nat → String → List (Nat × List String)
  | [], ℓ, nd => [(ℓ, [nd])]
  | q :: rest, ℓ, nd =>
    if q.1 == ℓ then (q.1, q.2 ++ [nd]) :: rest else q :: appendGroup rest ℓ nd

/-- Source lines 110-113 (and 136-139): group level-map entries by level,
skipping nodes already positioned (the actors, which are all in `pos0`). -/
def groupByLevel (levels : List (String × Nat)) (pos0 : List (String × Pos)) :
    List (Nat × List String) :=
  levels.foldl (fun g e => if keyMem pos0 e.1 then g else appendGroup g e.2 e.1) []

/-- Source lines 116-120 (and 142-146): place each level group along a row. -/
def placeGroups (pos0 : List (String × Pos)) (coordOf : Nat → ℚ → Nat → Pos)
    (grouped : List (Nat × List String)) : List (String × Pos) :=
  grouped.foldl (fun pos g => placeRow (coordOf g.1 (g.2.length : ℚ)) pos g.2 0) pos0

/-- `calculate_tree_positions(nodes, edges, actor_position, width, height, spacing_factor)`.
The source also computes `non_actor_nodes` (line 87) but never uses it, so it is omitted.
Any `actor_position` other than the two documented modes leaves `pos` empty. -/
def calculate_tree_positions (nodes : List String) (edges : List (String × String))
    (actor_position : String) (width height spacing_factor : ℚ) : List (String × Pos) :=
  let actor_nodes := nodes.filter isActor
  let x_spacing := width * spacing_factor
  let y_spacing := height * spacing_factor
  if actor_position == "top-center" then
    let pos0 := placeRow
      (fun i => ((i : ℚ) * x_spacing - ((actor_nodes.length : ℚ) - 1) * x_spacing / 2, 0))
      [] (pySorted actor_nodes) 0
    placeGroups pos0
      (fun ℓ len i => ((i : ℚ) * x_spacing - (len - 1) * x_spacing / 2, -(ℓ : ℚ) * y_spacing))
      (groupByLevel (mergedLevels actor_nodes edges) pos0)
  else if actor_position == "center-left" then
    let pos0 := placeRow (fun i => (0, -(i : ℚ) * y_spacing)) [] (pySorted actor_nodes) 0
    placeGroups pos0
      (fun ℓ len i => ((ℓ : ℚ) * x_spacing, -(i : ℚ) * y_spacing + (len - 1) * y_spacing / 2))
      (groupByLevel (mergedLevels actor_nodes edges) pos0)
  else []

/-! ## The pipeline (source lines 164-220, rendering elided) -/

/-- Source lines 210-213: `min`/`max` over the coordinate lists; Python `min`
raises `ValueError` on an empty sequence. Returns (xlim, ylim). -/
def axisLimits (pos : List (String × Pos)) (ew : ℚ) :
    Except String ((ℚ × ℚ) × (ℚ × ℚ)) :=
  match (pos.map (fun p => p.2.1)).min?, (pos.map (fun p => p.2.1)).max?,
      (pos.map (fun p => p.2.2)).min?, (pos.map (fun p => p.2.2)).max? with
  | some xmin, some xmax, some ymin, some ymax =>
    .ok ((xmin - ew, xmax + ew), (ymin - ew, ymax + ew))
  | _, _, _, _ => .error "ValueError: min() arg is an empty sequence"

/-- `generate_use_case_diagram` up to its pure data: parse, layout with the default
spacing (`width=2.5, height=1.0, spacing_factor=2.0`), and the axis-limit
computation with `ellipse_width = 2.5`. Matplotlib drawing and file output are
the out-of-scope render adapter. -/
def generate_use_case_diagram (ascii_description : String) (actor_position : String) :
    Except String (List (String × Pos) × ((ℚ × ℚ) × (ℚ × ℚ))) := do
  let (nodes, edges) ← parse ascii_description
  let pos := calculate_tree_positions nodes edges actor_position (5/2) 1 2
  let lims ← axisLimits pos (5/2)
  return (pos, lims)

deriving instance DecidableEq for Except

/-! ## Reachability (specification-side relation) -/

/-- One directed edge step. -/
def EdgeStep (edges : List (String × String)) (u v : String) : Prop := (u, v) ∈ edges

/-- `n` is reachable from `a` along directed edges (zero or more steps). -/
def Reaches (edges : List (String × String)) (a n : String) : Prop :=
  Relation.ReflTransGen (EdgeStep edges) a n

/-! ## Spec-modelled styled parser (for claim C1)

The repository contains two near-duplicate script variants (spec §9); only the
earlier, unstyled variant is under `src/`. The styled-edge parser that
distinguishes `-->` from `->` is therefore modelled from the spec. -/

/-- Edge style of the styled-parser variant. -/
inductive EdgeStyle where
  | solid : EdgeStyle
  | dashed : EdgeStyle
deriving DecidableEq

/-- Result of parsing one line in the styled variant. -/
inductive StyledLine where
  | bare (label : String) : StyledLine
  | arrow (source target : String) (style : EdgeStyle) : StyledLine
deriving DecidableEq

/-- Split at the first occurrence of the separator handled by `splitter`. -/
def splitFirstBy (splitter : List Char → List (List Char)) (sep : List Char)
    (l : List Char) : List Char × List Char :=
  match splitter l with
  | [] => (l, [])
  | [x] => (x, [])
  | x :: rest => (x, joinWith sep rest)

/-- Modelled from the spec: the styled-edge parser variant is not under `src/`.
Spec §4.1: a line containing the dashed marker `-->` declares a Dashed edge
(split on the first occurrence, strip whitespace from both sides); else a line
containing `->` declares a Solid edge, same handling; else the stripped line is
a standalone node. The dashed marker is checked before the solid one. -/
def parseStyledLine (line : String) : StyledLine :=
  if (splitDash line.data).length != 1 then
    let p := splitFirstBy splitDash ("-->".data) line.data
    .arrow (pyStrip ⟨p.1⟩) (pyStrip ⟨p.2⟩) .dashed
  else if (splitArrow line.data).length != 1 then
    let p := splitFirstBy splitArrow ("->".data) line.data
    .arrow (pyStrip ⟨p.1⟩) (pyStrip ⟨p.2⟩) .solid
  else .bare (pyStrip line)

/-- Modelled from the spec: whole-text styled parsing, line by line, registering
both endpoints of every edge in the node set. -/
def parse_styled (s : String) : List String × List (String × String × EdgeStyle) :=
  ((splitNl (pyStrip s).data).map String.mk).foldl
    (fun acc line =>
      match parseStyledLine line with
      | .bare n => (insertOrdered acc.1 n, acc.2)
      | .arrow a b st => (insertOrdered (insertOrdered acc.1 a) b, acc.2 ++ [(a, b, st)]))
    ([], [])

/-- The fold that records, per node, the level written by the last actor
(in iteration order) whose BFS reaches it — the `dict.update` overwrite law. -/
def lastLevelOf (actorNodes : List String) (edges : List (String × String)) (n : String) :
    Option Nat :=
  actorNodes.foldl
    (fun acc a => if inTree edges a then (dictGet? (sssp edges a) n).or acc else acc) none

/-! ## Lemmas: insertion-ordered sets -/

theorem contains_iff {l : List String} {b : String} : l.contains b = true ↔ b ∈ l :=
  List.elem_iff

theorem mem_insertOrdered {l : List String} {a b : String} :
    a ∈ insertOrdered l b ↔ a ∈ l ∨ a = b := by
  unfold insertOrdered
  by_cases h : b ∈ l
  · rw [if_pos (contains_iff.mpr h)]
    constructor
    · exact Or.inl
    · rintro (h' | rfl)
      · exact h'
      · exact h
  · rw [if_neg (fun hc => h (contains_iff.mp hc))]
    simp [List.mem_append]

theorem subset_insertOrdered {l : List String} {b : String} : l ⊆ insertOrdered l b :=
  fun _ h => mem_insertOrdered.mpr (Or.inl h)

theorem self_mem_insertOrdered {l : List String} {b : String} : b ∈ insertOrdered l b :=
  mem_insertOrdered.mpr (Or.inr rfl)

theorem nodup_insertOrdered {l : List String} {b : String} (h : l.Nodup) :
    (insertOrdered l b).Nodup := by
  unfold insertOrdered
  by_cases hm : b ∈ l
  · rw [if_pos (contains_iff.mpr hm)]
    exact h
  · rw [if_neg (fun hc => hm (contains_iff.mp hc))]
    exact List.nodup_append.mpr ⟨h, List.nodup_singleton b, by
      intro x hx hb
      rw [List.mem_singleton] at hb
      subst hb
      exact hm hx⟩

/-! ## Lemmas: dicts -/

theorem keyMem_iff {α : Type} {d : List (String × α)} {k : String} :
    keyMem d k = true ↔ ∃ v, (k, v) ∈ d := by
  unfold keyMem
  rw [List.any_eq_true]
  constructor
  · rintro ⟨⟨k', v⟩, hm, he⟩
    rw [beq_iff_eq] at he
    subst he
    exact ⟨v, hm⟩
  · rintro ⟨v, hv⟩
    exact ⟨(k, v), hv, by simp⟩

theorem keyMem_false_iff {α : Type} {d : List (String × α)} {k : String} :
    keyMem d k = false ↔ ∀ v, (k, v) ∉ d := by
  constructor
  · intro h v hv
    have := keyMem_iff.mpr ⟨v, hv⟩
    rw [h] at this
    exact absurd this (by simp)
  · intro h
    cases hk : keyMem d k
    · rfl
    · rcases keyMem_iff.mp hk with ⟨v, hv⟩
      exact absurd hv (h v)

theorem keyMem_append {α : Type} {d e : List (String × α)} {k : String} :
    keyMem (d ++ e) k = (keyMem d k || keyMem e k) := by
  simp [keyMem, List.any_append]

theorem dictGet?_append {α : Type} {d e : List (String × α)} {k : String} :
    dictGet? (d ++ e) k = if keyMem d k then dictGet? d k else dictGet? e k := by
  unfold dictGet? keyMem
  rw [List.find?_append]
  by_cases h : (d.any fun p => p.1 == k) = true
  · rcases List.any_eq_true.mp h with ⟨p, hp, he⟩
    cases hfind : d.find? (fun p => p.1 == k) with
    | none => exact absurd (List.find?_eq_none.mp hfind p hp) (by simp [he])
    | some q => simp [h, hfind]
  · have hnone : d.find? (fun p => p.1 == k) = none := by
      rw [List.find?_eq_none]
      intro p hp hc
      exact h (List.any_eq_true.mpr ⟨p, hp, hc⟩)
    simp [hnone, h]

theorem dictGet?_nil {α : Type} {k : String} : dictGet? ([] : List (String × α)) k = none := rfl

theorem dictGet?_isSome_iff {α : Type} {d : List (String × α)} {k : String} :
    (dictGet? d k).isSome = true ↔ keyMem d k = true := by
  unfold dictGet? keyMem
  rw [Option.isSome_map']
  cases hfind : d.find? (fun p => p.1 == k) with
  | none =>
    simp only [Option.isSome_none, Bool.false_eq_true, false_iff]
    intro h
    rcases List.any_eq_true.mp h with ⟨p, hp, he⟩
    exact absurd (List.find?_eq_none.mp hfind p hp) (by simp [he])
  | some q =>
    have hq := List.find?_some hfind
    have hm := List.mem_of_find?_eq_some hfind
    simp only [Option.isSome_some, true_iff]
    exact List.any_eq_true.mpr ⟨q, hm, hq⟩

theorem dictGet?_eq_none_iff {α : Type} {d : List (String × α)} {k : String} :
    dictGet? d k = none ↔ keyMem d k = false := by
  constructor
  · intro h
    cases hk : keyMem d k
    · rfl
    · have := dictGet?_isSome_iff.mpr hk
      rw [h] at this
      exact absurd this (by simp)
  · intro h
    cases hv : dictGet? d k with
    | none => rfl
    | some v =>
      have h1 : (dictGet? d k).isSome = true := by rw [hv]; rfl
      rw [dictGet?_isSome_iff] at h1
      rw [h1] at h
      exact absurd h (by simp)

/-- The keys of a dict, in order. -/
def keysOf (d : List (String × α)) : List String := d.map (fun p => p.1)

theorem keyMem_iff_keys {α : Type} {d : List (String × α)} {k : String} :
    keyMem d k = true ↔ k ∈ keysOf d := by
  rw [keyMem_iff]
  unfold keysOf
  constructor
  · rintro ⟨v, hv⟩
    exact List.mem_map.mpr ⟨(k, v), hv, rfl⟩
  · intro h
    rcases List.mem_map.mp h with ⟨⟨k', v⟩, hm, he⟩
    exact ⟨v, by simpa [← he] using hm⟩

theorem keyMem_notMem {α : Type} {d : List (String × α)} {k : String}
    (h : k ∉ keysOf d) : keyMem d k = false := by
  cases hk : keyMem d k
  · rfl
  · exact absurd (keyMem_iff_keys.mp hk) h

theorem dictGet?_cons {α : Type} {p : String × α} {e : List (String × α)} {k : String} :
    dictGet? (p :: e) k = if p.1 = k then some p.2 else dictGet? e k := by
  by_cases h : p.1 = k
  · rw [dictGet?, List.find?_cons_of_pos _ (by simpa using h), if_pos h]
    rfl
  · rw [dictGet?, List.find?_cons_of_neg _ (by simpa using h), if_neg h]
    rfl

theorem dictInsert_cons {α : Type} {p : String × α} {rest : List (String × α)}
    {k : String} {v : α} :
    dictInsert (p :: rest) k v =
      if p.1 == k then (k, v) :: rest else p :: dictInsert rest k v := rfl

theorem dictGet?_insert {α : Type} {d : List (String × α)} {k k' : String} {v : α} :
    dictGet? (dictInsert d k v) k' = if k' = k then some v else dictGet? d k' := by
  induction d with
  | nil =>
    show dictGet? [(k, v)] k' = _
    rw [dictGet?_cons]
    by_cases h : k' = k
    · simp [h]
    · rw [if_neg (Ne.symm h), if_neg h]
  | cons p rest ih =>
    rw [dictInsert_cons]
    by_cases hpk : p.1 = k
    · rw [if_pos (by simpa using hpk), dictGet?_cons, dictGet?_cons]
      by_cases h : k' = k
      · simp [h]
      · rw [if_neg (Ne.symm h), if_neg h, if_neg (by rw [hpk]; exact Ne.symm h)]
    · rw [if_neg (by simpa using hpk), dictGet?_cons, dictGet?_cons, ih]
      by_cases hp' : p.1 = k'
      · have h : ¬k' = k := fun hc => hpk (by rw [hp', hc])
        rw [if_pos hp', if_neg h, if_pos hp']
      · rw [if_neg hp', if_neg hp']

theorem mem_keys_dictInsert {α : Type} {d : List (String × α)} {k a : String} {v : α} :
    a ∈ keysOf (dictInsert d k v) ↔ a ∈ keysOf d ∨ a = k := by
  induction d with
  | nil => simp [dictInsert, keysOf]
  | cons p rest ih =>
    rw [dictInsert_cons]
    by_cases hpk : p.1 = k
    · rw [if_pos (by simpa using hpk)]
      simp only [keysOf, List.map_cons, List.mem_cons] at *
      rw [hpk]
      tauto
    · rw [if_neg (by simpa using hpk)]
      simp only [keysOf, List.map_cons, List.mem_cons] at *
      rw [ih]
      tauto

theorem nodup_keys_dictInsert {α : Type} {d : List (String × α)} {k : String} {v : α}
    (h : (keysOf d).Nodup) : (keysOf (dictInsert d k v)).Nodup := by
  induction d with
  | nil => simp [dictInsert, keysOf]
  | cons p rest ih =>
    simp only [keysOf, List.map_cons, List.nodup_cons] at h
    rw [dictInsert_cons]
    by_cases hpk : p.1 = k
    · rw [if_pos (by simpa using hpk)]
      simp only [keysOf, List.map_cons, List.nodup_cons]
      exact ⟨by rw [← hpk]; exact h.1, h.2⟩
    · rw [if_neg (by simpa using hpk)]
      simp only [keysOf, List.map_cons, List.nodup_cons]
      refine ⟨fun hc => ?_, ih h.2⟩
      rcases (mem_keys_dictInsert (d := rest)).mp hc with h' | h'
      · exact h.1 h'
      · exact hpk h'

theorem dictUpdate_nil {α : Type} {d : List (String × α)} : dictUpdate d [] = d := rfl

theorem dictUpdate_cons {α : Type} {d e : List (String × α)} {p : String × α} :
    dictUpdate d (p :: e) = dictUpdate (dictInsert d p.1 p.2) e := rfl

theorem mem_keys_dictUpdate {α : Type} {d e : List (String × α)} {a : String} :
    a ∈ keysOf (dictUpdate d e) ↔ a ∈ keysOf d ∨ a ∈ keysOf e := by
  induction e generalizing d with
  | nil => simp [dictUpdate_nil, keysOf]
  | cons p e' ih =>
    rw [dictUpdate_cons, ih, mem_keys_dictInsert]
    simp only [keysOf, List.map_cons, List.mem_cons]
    tauto

theorem nodup_keys_dictUpdate {α : Type} {d e : List (String × α)}
    (h : (keysOf d).Nodup) : (keysOf (dictUpdate d e)).Nodup := by
  induction e generalizing d with
  | nil => exact h
  | cons p e' ih => exact ih (nodup_keys_dictInsert h)

theorem dictGet?_update {α : Type} {e : List (String × α)} {k : String}
    (he : (keysOf e).Nodup) {d : List (String × α)} :
    dictGet? (dictUpdate d e) k = (dictGet? e k).or (dictGet? d k) := by
  induction e generalizing d with
  | nil => simp [dictUpdate_nil, dictGet?, Option.or]
  | cons p e' ih =>
    simp only [keysOf, List.map_cons, List.nodup_cons] at he
    rw [dictUpdate_cons, ih he.2, dictGet?_insert, dictGet?_cons]
    by_cases h : k = p.1
    · have hnone : dictGet? e' k = none := by
        rw [dictGet?_eq_none_iff]
        exact keyMem_notMem (h ▸ he.1)
      rw [hnone, if_pos h, if_pos h.symm]
      simp [Option.or]
    · rw [if_neg h, if_neg (fun hc => h hc.symm)]

theorem dictGet?_some_iff_mem {α : Type} {d : List (String × α)} {k : String} {v : α}
    (h : (keysOf d).Nodup) : dictGet? d k = some v ↔ (k, v) ∈ d := by
  induction d with
  | nil => simp [dictGet?]
  | cons p rest ih =>
    simp only [keysOf, List.map_cons, List.nodup_cons] at h
    rw [dictGet?_cons, List.mem_cons]
    by_cases hpk : p.1 = k
    · rw [if_pos hpk]
      constructor
      · intro hv
        left
        have hv2 := Option.some_inj.mp hv
        calc (k, v) = (p.1, p.2) := by rw [hpk, hv2]
        _ = p := rfl
      · rintro (hp | hm)
        · rw [← hp]
        · exfalso
          have hk : k ∈ keysOf rest := keyMem_iff_keys.mp (keyMem_iff.mpr ⟨v, hm⟩)
          exact h.1 (hpk ▸ hk)
    · rw [if_neg hpk, ih h.2]
      constructor
      · exact fun hm => Or.inr hm
      · rintro (hp | hm)
        · exfalso
          exact hpk (congrArg Prod.fst hp.symm)
        · exact hm

/-- Count of entries with key `k`. -/
def countKey (d : List (String × α)) (k : String) : Nat :=
  (d.filter (fun p => p.1 == k)).length

theorem countKey_eq_ite {α : Type} {d : List (String × α)} {k : String}
    (h : (keysOf d).Nodup) : countKey d k = if keyMem d k then 1 else 0 := by
  induction d with
  | nil => simp [countKey, keyMem]
  | cons p rest ih =>
    simp only [keysOf, List.map_cons, List.nodup_cons] at h
    have ih' := ih h.2
    unfold countKey keyMem at ih' ⊢
    rw [List.filter_cons, List.any_cons]
    by_cases hpk : p.1 = k
    · have hrest : rest.any (fun p => p.1 == k) = false := by
        cases hk : rest.any (fun p => p.1 == k)
        · rfl
        · have : k ∈ keysOf rest := keyMem_iff_keys.mp hk
          exact absurd (hpk ▸ this) h.1
      rw [show (p.1 == k) = true by simpa using hpk]
      simp only [Bool.true_or, if_true, List.length_cons]
      rw [ih', hrest]
      simp
    · rw [show (p.1 == k) = false by simpa using hpk]
      simpa using ih'

/-! ## Lemmas: row and group placement -/

theorem placeRow_nil {coord : Nat → Pos} {pos : List (String × Pos)} {i : Nat} :
    placeRow coord pos [] i = pos := rfl

theorem placeRow_cons {coord : Nat → Pos} {pos : List (String × Pos)} {nd : String}
    {rest : List String} {i : Nat} :
    placeRow coord pos (nd :: rest) i =
      placeRow coord (dictInsert pos nd (coord i)) rest (i + 1) := rfl

theorem mem_keys_placeRow {coord : Nat → Pos} {pos : List (String × Pos)}
    {lst : List String} {i : Nat} {n : String} :
    n ∈ keysOf (placeRow coord pos lst i) ↔ n ∈ keysOf pos ∨ n ∈ lst := by
  induction lst generalizing pos i with
  | nil => simp [placeRow_nil]
  | cons nd rest ih =>
    rw [placeRow_cons, ih, mem_keys_dictInsert]
    simp only [List.mem_cons]
    tauto

theorem nodup_keys_placeRow {coord : Nat → Pos} {pos : List (String × Pos)}
    {lst : List String} {i : Nat} (h : (keysOf pos).Nodup) :
    (keysOf (placeRow coord pos lst i)).Nodup := by
  induction lst generalizing pos i with
  | nil => exact h
  | cons nd rest ih => exact ih (nodup_keys_dictInsert h)

theorem placeRow_get_shape {coord : Nat → Pos} {pos : List (String × Pos)}
    {lst : List String} {i : Nat} {n : String} {p : Pos}
    (h : dictGet? (placeRow coord pos lst i) n = some p) :
    dictGet? pos n = some p ∨ ∃ j, j < lst.length ∧ p = coord (i + j) := by
  induction lst generalizing pos i with
  | nil => exact Or.inl h
  | cons nd rest ih =>
    rw [placeRow_cons] at h
    rcases ih h with h' | ⟨j, hj, hp⟩
    · rw [dictGet?_insert] at h'
      by_cases hn : n = nd
      · rw [if_pos hn] at h'
        refine Or.inr ⟨0, by simp, ?_⟩
        rw [Nat.add_zero]
        exact (Option.some_inj.mp h').symm
      · rw [if_neg hn] at h'
        exact Or.inl h'
    · refine Or.inr ⟨j + 1, by simpa using hj, ?_⟩
      rw [hp]
      congr 1
      omega

theorem placeRow_get_notMem {coord : Nat → Pos} {pos : List (String × Pos)}
    {lst : List String} {i : Nat} {n : String} (h : n ∉ lst) :
    dictGet? (placeRow coord pos lst i) n = dictGet? pos n := by
  induction lst generalizing pos i with
  | nil => rfl
  | cons nd rest ih =>
    rw [placeRow_cons, ih (fun hc => h (List.mem_cons_of_mem _ hc)), dictGet?_insert,
      if_neg (fun hc => h (by rw [hc]; exact List.mem_cons_self _ _))]

theorem placeRow_get_fresh {coord : Nat → Pos} {pos : List (String × Pos)}
    {lst : List String} {i : Nat} {n : String} {p : Pos}
    (hnd : lst.Nodup) (hfresh : ∀ m ∈ lst, m ∉ keysOf pos) :
    dictGet? (placeRow coord pos lst i) n = some p ↔
      (dictGet? pos n = some p ∨ ∃ j, lst.get? j = some n ∧ p = coord (i + j)) := by
  induction lst generalizing pos i with
  | nil =>
    rw [placeRow_nil]
    simp
  | cons nd rest ih =>
    rw [placeRow_cons]
    rw [List.nodup_cons] at hnd
    rw [ih hnd.2 (fun m hm => by
      intro hc
      rcases mem_keys_dictInsert.mp hc with h' | h'
      · exact hfresh m (List.mem_cons_of_mem _ hm) h'
      · exact hnd.1 (h' ▸ hm))]
    rw [dictGet?_insert]
    by_cases hn : n = nd
    · subst hn
      rw [if_pos rfl]
      have hpos : dictGet? pos n = none :=
        dictGet?_eq_none_iff.mpr (keyMem_notMem (hfresh n (List.mem_cons_self _ _)))
      constructor
      · rintro (h' | ⟨j, hj, hp⟩)
        · exact Or.inr ⟨0, rfl, by rw [Nat.add_zero]; exact (Option.some_inj.mp h').symm⟩
        · exfalso
          exact hnd.1 (List.get?_mem hj)
      · rintro (h' | ⟨j, hj, hp⟩)
        · rw [hpos] at h'
          exact absurd h' (by simp)
        · cases j with
          | zero =>
            left
            rw [hp]
            simp
          | succ j' =>
            exfalso
            exact hnd.1 (List.get?_mem (by simpa using hj))
    · rw [if_neg hn]
      constructor
      · rintro (h' | ⟨j, hj, hp⟩)
        · exact Or.inl h'
        · exact Or.inr ⟨j + 1, by simpa using hj, by rw [hp]; congr 1; omega⟩
      · rintro (h' | ⟨j, hj, hp⟩)
        · exact Or.inl h'
        · cases j with
          | zero =>
            exfalso
            exact hn (Option.some_inj.mp (by simpa using hj)).symm
          | succ j' =>
            exact Or.inr ⟨j', by simpa using hj, by rw [hp]; congr 1; omega⟩

theorem placeGroups_nil {pos0 : List (String × Pos)} {coordOf : Nat → ℚ → Nat → Pos} :
    placeGroups pos0 coordOf [] = pos0 := rfl

theorem placeGroups_cons {pos0 : List (String × Pos)} {coordOf : Nat → ℚ → Nat → Pos}
    {g : Nat × List String} {gs : List (Nat × List String)} :
    placeGroups pos0 coordOf (g :: gs) =
      placeGroups (placeRow (coordOf g.1 (g.2.length : ℚ)) pos0 g.2 0) coordOf gs := rfl

theorem mem_keys_placeGroups {pos0 : List (String × Pos)} {coordOf : Nat → ℚ → Nat → Pos}
    {grouped : List (Nat × List String)} {n : String} :
    n ∈ keysOf (placeGroups pos0 coordOf grouped) ↔
      n ∈ keysOf pos0 ∨ ∃ g ∈ grouped, n ∈ g.2 := by
  induction grouped generalizing pos0 with
  | nil => simp [placeGroups_nil]
  | cons g gs ih =>
    rw [placeGroups_cons, ih, mem_keys_placeRow]
    simp only [List.mem_cons]
    constructor
    · rintro ((h | h) | ⟨g', hg', hn⟩)
      · exact Or.inl h
      · exact Or.inr ⟨g, Or.inl rfl, h⟩
      · exact Or.inr ⟨g', Or.inr hg', hn⟩
    · rintro (h | ⟨g', hg' | hg', hn⟩)
      · exact Or.inl (Or.inl h)
      · exact Or.inl (Or.inr (hg' ▸ hn))
      · exact Or.inr ⟨g', hg', hn⟩

theorem nodup_keys_placeGroups {pos0 : List (String × Pos)} {coordOf : Nat → ℚ → Nat → Pos}
    {grouped : List (Nat × List String)} (h : (keysOf pos0).Nodup) :
    (keysOf (placeGroups pos0 coordOf grouped)).Nodup := by
  induction grouped generalizing pos0 with
  | nil => exact h
  | cons g gs ih => exact ih (nodup_keys_placeRow h)

theorem placeGroups_get_shape {pos0 : List (String × Pos)} {coordOf : Nat → ℚ → Nat → Pos}
    {grouped : List (Nat × List String)} {n : String} {p : Pos}
    (h : dictGet? (placeGroups pos0 coordOf grouped) n = some p) :
    dictGet? pos0 n = some p ∨
      ∃ g ∈ grouped, ∃ j, j < g.2.length ∧ p = coordOf g.1 (g.2.length : ℚ) j := by
  induction grouped generalizing pos0 with
  | nil => exact Or.inl h
  | cons g gs ih =>
    rw [placeGroups_cons] at h
    rcases ih h with h' | ⟨g', hg', j, hj, hp⟩
    · rcases placeRow_get_shape h' with h'' | ⟨j, hj, hp⟩
      · exact Or.inl h''
      · exact Or.inr ⟨g, List.mem_cons_self _ _, j, by simpa using hj, by simpa using hp⟩
    · exact Or.inr ⟨g', List.mem_cons_of_mem _ hg', j, hj, hp⟩

theorem placeGroups_get_notMem {pos0 : List (String × Pos)} {coordOf : Nat → ℚ → Nat → Pos}
    {grouped : List (Nat × List String)} {n : String} (h : ∀ g ∈ grouped, n ∉ g.2) :
    dictGet? (placeGroups pos0 coordOf grouped) n = dictGet? pos0 n := by
  induction grouped generalizing pos0 with
  | nil => rfl
  | cons g gs ih =>
    rw [placeGroups_cons, ih (fun g' hg' => h g' (List.mem_cons_of_mem _ hg')),
      placeRow_get_notMem (h g (List.mem_cons_self _ _))]

theorem placeGroups_get_fresh {pos0 : List (String × Pos)} {coordOf : Nat → ℚ → Nat → Pos}
    {grouped : List (Nat × List String)} {n : String} {p : Pos}
    (hnd : ∀ g ∈ grouped, (g.2 : List String).Nodup)
    (hfresh : ∀ g ∈ grouped, ∀ m ∈ g.2, m ∉ keysOf pos0)
    (hdisj : grouped.Pairwise (fun g1 g2 => ∀ m, m ∈ g1.2 → m ∉ g2.2)) :
    dictGet? (placeGroups pos0 coordOf grouped) n = some p ↔
      (dictGet? pos0 n = some p ∨
        ∃ g ∈ grouped, ∃ j, g.2.get? j = some n ∧ p = coordOf g.1 (g.2.length : ℚ) j) := by
  induction grouped generalizing pos0 with
  | nil =>
    rw [placeGroups_nil]
    simp
  | cons g gs ih =>
    rw [placeGroups_cons]
    rw [List.pairwise_cons] at hdisj
    rw [ih (fun g' hg' => hnd g' (List.mem_cons_of_mem _ hg'))
      (fun g' hg' m hm => by
        intro hc
        rcases mem_keys_placeRow.mp hc with h' | h'
        · exact hfresh g' (List.mem_cons_of_mem _ hg') m hm h'
        · exact hdisj.1 g' hg' m h' hm)
      hdisj.2]
    rw [placeRow_get_fresh (hnd g (List.mem_cons_self _ _))
      (fun m hm => hfresh g (List.mem_cons_self _ _) m hm)]
    constructor
    · rintro ((h' | ⟨j, hj, hp⟩) | ⟨g', hg', j, hj, hp⟩)
      · exact Or.inl h'
      · exact Or.inr ⟨g, List.mem_cons_self _ _, j, hj, by simpa using hp⟩
      · exact Or.inr ⟨g', List.mem_cons_of_mem _ hg', j, hj, hp⟩
    · rintro (h' | ⟨g', hg', j, hj, hp⟩)
      · exact Or.inl (Or.inl h')
      · rcases List.mem_cons.mp hg' with rfl | hg''
        · exact Or.inl (Or.inr ⟨j, hj, by simpa using hp⟩)
        · exact Or.inr ⟨g', hg'', j, hj, hp⟩

/-! ## Lemmas: sorting -/

theorem perm_insertSorted {a : String} {l : List String} :
    (insertSorted a l).Perm (a :: l) := by
  induction l with
  | nil => exact List.Perm.refl _
  | cons b rest ih =>
    unfold insertSorted
    by_cases h : charListLt a.data b.data = true
    · rw [if_pos h]
    · rw [if_neg h]
      exact List.Perm.trans (List.Perm.cons b ih) (List.Perm.swap a b rest)

theorem perm_pySorted_fold {l : List String} :
    ∀ {acc}, (l.foldl (fun acc a => insertSorted a acc) acc).Perm (acc ++ l) := by
  induction l with
  | nil => intro acc; simp
  | cons a l ih =>
    intro acc
    refine List.Perm.trans ih ?_
    refine List.Perm.trans (List.Perm.append_right l perm_insertSorted) ?_
    exact List.perm_middle.symm

theorem perm_pySorted {l : List String} : (pySorted l).Perm l := by
  have := @perm_pySorted_fold l []
  simpa using this

theorem mem_pySorted {l : List String} {a : String} : a ∈ pySorted l ↔ a ∈ l :=
  (perm_pySorted).mem_iff

theorem nodup_pySorted {l : List String} (h : l.Nodup) : (pySorted l).Nodup :=
  (perm_pySorted).nodup_iff.mpr h

/-! ## Lemmas: graph primitives -/

theorem mem_foldl_insertOrdered {l : List String} :
    ∀ {acc a}, a ∈ l.foldl insertOrdered acc ↔ a ∈ acc ∨ a ∈ l := by
  induction l with
  | nil => intro acc a; simp
  | cons b l ih =>
    intro acc a
    rw [List.foldl_cons, ih, mem_insertOrdered]
    simp only [List.mem_cons]
    tauto

theorem nodup_foldl_insertOrdered {l : List String} :
    ∀ {acc}, acc.Nodup → (l.foldl insertOrdered acc).Nodup := by
  induction l with
  | nil => intro acc h; exact h
  | cons b l ih => intro acc h; exact ih (nodup_insertOrdered h)

theorem mem_successors {edges : List (String × String)} {u v : String} :
    v ∈ successors edges u ↔ (u, v) ∈ edges := by
  unfold successors
  rw [mem_foldl_insertOrdered]
  simp only [List.mem_nil_iff, false_or, List.mem_filterMap]
  constructor
  · rintro ⟨e, he, hv⟩
    by_cases h : e.1 = u
    · rw [if_pos (by simpa using h)] at hv
      have : e = (u, v) := by
        cases e
        simp only at h hv ⊢
        rw [h, Option.some_inj.mp hv]
      rw [← this]
      exact he
    · rw [if_neg (by simpa using h)] at hv
      exact absurd hv (by simp)
  · intro h
    exact ⟨(u, v), h, by simp⟩

theorem successors_sub_targets {edges : List (String × String)} {u v : String}
    (h : v ∈ successors edges u) : v ∈ edges.map (fun e => e.2) := by
  rcases mem_successors.mp h with hm
  exact List.mem_map.mpr ⟨(u, v), hm, rfl⟩

theorem inTree_iff {edges : List (String × String)} {v : String} :
    inTree edges v = true ↔ ∃ e ∈ edges, e.1 = v ∨ e.2 = v := by
  unfold inTree
  rw [List.any_eq_true]
  constructor
  · rintro ⟨e, he, hp⟩
    rcases Bool.or_eq_true_iff.mp hp with h | h
    · exact ⟨e, he, Or.inl (by simpa using h)⟩
    · exact ⟨e, he, Or.inr (by simpa using h)⟩
  · rintro ⟨e, he, h | h⟩
    · exact ⟨e, he, by simp [h]⟩
    · exact ⟨e, he, by simp [h]⟩

theorem inTree_of_edge_fst {edges : List (String × String)} {u v : String}
    (h : (u, v) ∈ edges) : inTree edges u = true :=
  inTree_iff.mpr ⟨(u, v), h, Or.inl rfl⟩

/-! ## Lemmas: appendGroup -/

theorem appendGroup_source {g : List (Nat × List String)} {ℓ : Nat} {nd : String}
    {q' : Nat × List String} {n' : String}
    (hq : q' ∈ appendGroup g ℓ nd) (hn : n' ∈ q'.2) :
    (∃ q ∈ g, q.1 = q'.1 ∧ n' ∈ q.2) ∨ (q'.1 = ℓ ∧ n' = nd) := by
  induction g with
  | nil =>
    rcases List.mem_singleton.mp hq with rfl
    right
    simpa using hn
  | cons q rest ih =>
    unfold appendGroup at hq
    by_cases h : q.1 = ℓ
    · rw [if_pos (by simpa using h)] at hq
      rcases List.mem_cons.mp hq with rfl | hq'
      · simp only at hn
        rcases List.mem_append.mp hn with h' | h'
        · exact Or.inl ⟨q, List.mem_cons_self _ _, rfl, h'⟩
        · exact Or.inr ⟨h, List.mem_singleton.mp h'⟩
      · exact Or.inl ⟨q', List.mem_cons_of_mem _ hq', rfl, hn⟩
    · rw [if_neg (by simpa using h)] at hq
      rcases List.mem_cons.mp hq with rfl | hq'
      · exact Or.inl ⟨q', List.mem_cons_self _ _, rfl, hn⟩
      · rcases ih hq' with ⟨q0, hq0, he, hn0⟩ | h'
        · exact Or.inl ⟨q0, List.mem_cons_of_mem _ hq0, he, hn0⟩
        · exact Or.inr h'

theorem appendGroup_preserves {g : List (Nat × List String)} {ℓ : Nat} {nd : String}
    {q : Nat × List String} (hq : q ∈ g) :
    ∃ lst', (q.1, lst') ∈ appendGroup g ℓ nd ∧ q.2 ⊆ lst' := by
  induction g with
  | nil => exact absurd hq (List.not_mem_nil q)
  | cons q0 rest ih =>
    unfold appendGroup
    by_cases h : q0.1 = ℓ
    · rw [if_pos (by simpa using h)]
      rcases List.mem_cons.mp hq with rfl | hq'
      · exact ⟨q.2 ++ [nd], List.mem_cons_self _ _, List.subset_append_left _ _⟩
      · exact ⟨q.2, List.mem_cons_of_mem _ (by simpa using hq'), List.Subset.refl _⟩
    · rw [if_neg (by simpa using h)]
      rcases List.mem_cons.mp hq with rfl | hq'
      · exact ⟨q.2, List.mem_cons_self _ _, List.Subset.refl _⟩
      · rcases ih hq' with ⟨lst', hm, hs⟩
        exact ⟨lst', List.mem_cons_of_mem _ hm, hs⟩

theorem appendGroup_adds {g : List (Nat × List String)} {ℓ : Nat} {nd : String} :
    ∃ lst', (ℓ, lst') ∈ appendGroup g ℓ nd ∧ nd ∈ lst' := by
  induction g with
  | nil => exact ⟨[nd], List.mem_singleton.mpr rfl, List.mem_singleton.mpr rfl⟩
  | cons q rest ih =>
    unfold appendGroup
    by_cases h : q.1 = ℓ
    · rw [if_pos (by simpa using h)]
      refine ⟨q.2 ++ [nd], ?_, by simp⟩
      rw [← h]
      exact List.mem_cons_self _ _
    · rw [if_neg (by simpa using h)]
      rcases ih with ⟨lst', hm, hn⟩
      exact ⟨lst', List.mem_cons_of_mem _ hm, hn⟩

theorem appendGroup_keys_sub {g : List (Nat × List String)} {ℓ a : Nat} {nd : String}
    (h : a ∈ (appendGroup g ℓ nd).map (fun q => q.1)) :
    a ∈ g.map (fun q => q.1) ∨ a = ℓ := by
  induction g with
  | nil =>
    right
    have he : (appendGroup ([] : List (Nat × List String)) ℓ nd).map (fun q => q.1) = [ℓ] := rfl
    rw [he] at h
    exact List.mem_singleton.mp h
  | cons q rest ih =>
    unfold appendGroup at h
    by_cases hq : q.1 = ℓ
    · rw [if_pos (by simpa using hq)] at h
      simp only [List.map_cons, List.mem_cons] at h ⊢
      tauto
    · rw [if_neg (by simpa using hq)] at h
      simp only [List.map_cons, List.mem_cons] at h ⊢
      rcases h with h | h
      · exact Or.inl (Or.inl h)
      · rcases ih h with h' | h'
        · exact Or.inl (Or.inr h')
        · exact Or.inr h'

theorem appendGroup_keys_nodup {g : List (Nat × List String)} {ℓ : Nat} {nd : String}
    (h : (g.map (fun q => q.1)).Nodup) :
    ((appendGroup g ℓ nd).map (fun q => q.1)).Nodup := by
  induction g with
  | nil => simp [appendGroup]
  | cons q rest ih =>
    simp only [List.map_cons, List.nodup_cons] at h
    unfold appendGroup
    by_cases hq : q.1 = ℓ
    · rw [if_pos (by simpa using hq)]
      simp only [List.map_cons, List.nodup_cons]
      exact h
    · rw [if_neg (by simpa using hq)]
      simp only [List.map_cons, List.nodup_cons]
      refine ⟨fun hc => ?_, ih h.2⟩
      rcases appendGroup_keys_sub hc with h' | h'
      · exact h.1 h'
      · exact hq h'

theorem appendGroup_lists_nodup {g : List (Nat × List String)} {ℓ : Nat} {nd : String}
    (h : ∀ q ∈ g, (q.2 : List String).Nodup) (hf : ∀ q ∈ g, nd ∉ q.2) :
    ∀ q' ∈ appendGroup g ℓ nd, (q'.2 : List String).Nodup := by
  induction g with
  | nil =>
    intro q' hq'
    rcases List.mem_singleton.mp hq' with rfl
    simp
  | cons q rest ih =>
    intro q' hq'
    unfold appendGroup at hq'
    by_cases hq : q.1 = ℓ
    · rw [if_pos (by simpa using hq)] at hq'
      rcases List.mem_cons.mp hq' with rfl | hq''
      · simp only
        rw [List.nodup_append]
        exact ⟨h q (List.mem_cons_self _ _), List.nodup_singleton _, by
          intro x hx hx'
          rw [List.mem_singleton] at hx'
          subst hx'
          exact hf q (List.mem_cons_self _ _) hx⟩
      · exact h q' (List.mem_cons_of_mem _ hq'')
    · rw [if_neg (by simpa using hq)] at hq'
      rcases List.mem_cons.mp hq' with rfl | hq''
      · exact h q' (List.mem_cons_self _ _)
      · exact ih (fun q0 h0 => h q0 (List.mem_cons_of_mem _ h0))
          (fun q0 h0 => hf q0 (List.mem_cons_of_mem _ h0)) q' hq''

theorem appendGroup_pairwise {g : List (Nat × List String)} {ℓ : Nat} {nd : String}
    (h : g.Pairwise (fun g1 g2 => ∀ m, m ∈ g1.2 → m ∉ g2.2))
    (hf : ∀ q ∈ g, nd ∉ q.2) :
    (appendGroup g ℓ nd).Pairwise (fun g1 g2 => ∀ m, m ∈ g1.2 → m ∉ g2.2) := by
  induction g with
  | nil => simp [appendGroup]
  | cons q rest ih =>
    rw [List.pairwise_cons] at h
    unfold appendGroup
    by_cases hq : q.1 = ℓ
    · rw [if_pos (by simpa using hq)]
      rw [List.pairwise_cons]
      refine ⟨fun q' hq' m hm => ?_, h.2⟩
      simp only at hm
      rcases List.mem_append.mp hm with hm' | hm'
      · exact h.1 q' hq' m hm'
      · rw [List.mem_singleton] at hm'
        subst hm'
        exact hf q' (List.mem_cons_of_mem _ hq')
    · rw [if_neg (by simpa using hq)]
      rw [List.pairwise_cons]
      refine ⟨fun q' hq' m hm => fun hc => ?_,
        ih h.2 (fun q0 h0 => hf q0 (List.mem_cons_of_mem _ h0))⟩
      rcases appendGroup_source hq' hc with ⟨q0, hq0, _, hn0⟩ | ⟨_, rfl⟩
      · exact h.1 q0 hq0 m hm hn0
      · exact hf q (List.mem_cons_self _ _) hm

/-! ## Lemmas: groupByLevel -/

theorem groupFold_inv {pos0 : List (String × Pos)} :
    ∀ (levels : List (String × Nat)) (g : List (Nat × List String)),
    (keysOf levels).Nodup →
    (g.map (fun q => q.1)).Nodup →
    (∀ q ∈ g, (q.2 : List String).Nodup) →
    g.Pairwise (fun g1 g2 => ∀ m, m ∈ g1.2 → m ∉ g2.2) →
    (∀ q ∈ g, ∀ n ∈ q.2, n ∉ keysOf levels) →
    (((levels.foldl (fun g e => if keyMem pos0 e.1 then g else appendGroup g e.2 e.1) g).map
        (fun q => q.1)).Nodup ∧
      (∀ q ∈ levels.foldl (fun g e => if keyMem pos0 e.1 then g else appendGroup g e.2 e.1) g,
        (q.2 : List String).Nodup) ∧
      (levels.foldl (fun g e => if keyMem pos0 e.1 then g else appendGroup g e.2 e.1) g).Pairwise
        (fun g1 g2 => ∀ m, m ∈ g1.2 → m ∉ g2.2) ∧
      (∀ q ∈ g, ∃ lst',
        (q.1, lst') ∈
          levels.foldl (fun g e => if keyMem pos0 e.1 then g else appendGroup g e.2 e.1) g ∧
        q.2 ⊆ lst') ∧
      (∀ n ℓ, (n, ℓ) ∈ levels → keyMem pos0 n = false → ∃ lst,
        (ℓ, lst) ∈
          levels.foldl (fun g e => if keyMem pos0 e.1 then g else appendGroup g e.2 e.1) g ∧
        n ∈ lst) ∧
      (∀ q ∈ levels.foldl (fun g e => if keyMem pos0 e.1 then g else appendGroup g e.2 e.1) g,
        ∀ n ∈ q.2,
        (∃ q0 ∈ g, q0.1 = q.1 ∧ n ∈ q0.2) ∨ ((n, q.1) ∈ levels ∧ keyMem pos0 n = false))) := by
  intro levels
  induction levels with
  | nil =>
    intro g hlv hkeys hlists hpw hfresh
    refine ⟨hkeys, hlists, hpw, ?_, ?_, ?_⟩
    · intro q hq
      exact ⟨q.2, by simpa using hq, List.Subset.refl _⟩
    · intro n ℓ hm
      exact absurd hm (List.not_mem_nil _)
    · intro q hq n hn
      exact Or.inl ⟨q, hq, rfl, hn⟩
  | cons e rest ih =>
    intro g hlv hkeys hlists hpw hfresh
    simp only [keysOf, List.map_cons, List.nodup_cons] at hlv
    rw [List.foldl_cons]
    by_cases hk : keyMem pos0 e.1
    · rw [if_pos hk]
      rcases ih g hlv.2 hkeys hlists hpw
        (fun q hq n hn hc => hfresh q hq n hn (List.mem_cons_of_mem _ hc)) with
        ⟨c1, c2, c3, c4, c5, c6⟩
      refine ⟨c1, c2, c3, c4, ?_, ?_⟩
      · intro n ℓ hm hp
        rcases List.mem_cons.mp hm with he | hm'
        · exfalso
          have : keyMem pos0 n = true := by
            rw [show n = e.1 by rw [← he]]
            exact hk
          rw [hp] at this
          exact absurd this (by simp)
        · exact c5 n ℓ hm' hp
      · intro q hq n hn
        rcases c6 q hq n hn with h' | ⟨h1, h2⟩
        · exact Or.inl h'
        · exact Or.inr ⟨List.mem_cons_of_mem _ h1, h2⟩
    · rw [if_neg hk]
      have hkb : keyMem pos0 e.1 = false := by
        cases hkk : keyMem pos0 e.1
        · rfl
        · exact absurd hkk hk
      have hndfresh : ∀ q ∈ g, e.1 ∉ q.2 := by
        intro q hq hc
        exact hfresh q hq e.1 hc (by simp [keysOf])
      have hkeys' := @appendGroup_keys_nodup g e.2 e.1 hkeys
      have hlists' := appendGroup_lists_nodup (ℓ := e.2) hlists hndfresh
      have hpw' := appendGroup_pairwise (ℓ := e.2) hpw hndfresh
      have hfresh' : ∀ q ∈ appendGroup g e.2 e.1, ∀ n ∈ q.2, n ∉ keysOf rest := by
        intro q hq n hn hc
        rcases appendGroup_source hq hn with ⟨q0, hq0, _, hn0⟩ | ⟨_, rfl⟩
        · exact hfresh q0 hq0 n hn0 (by
            simp only [keysOf, List.map_cons, List.mem_cons]
            exact Or.inr hc)
        · exact hlv.1 hc
      rcases ih (appendGroup g e.2 e.1) hlv.2 hkeys' hlists' hpw' hfresh' with
        ⟨c1, c2, c3, c4, c5, c6⟩
      refine ⟨c1, c2, c3, ?_, ?_, ?_⟩
      · intro q hq
        rcases @appendGroup_preserves g e.2 e.1 q hq with ⟨lst', hm', hs'⟩
        rcases c4 (q.1, lst') hm' with ⟨lst'', hm'', hs''⟩
        exact ⟨lst'', hm'', fun x hx => hs'' (hs' hx)⟩
      · intro n ℓ hm hp
        rcases List.mem_cons.mp hm with he | hm'
        · rcases @appendGroup_adds g e.2 e.1 with ⟨lst', hm', hn'⟩
          have he1 : n = e.1 := by rw [← he]
          have he2 : ℓ = e.2 := by rw [← he]
          subst he1
          subst he2
          rcases c4 (e.2, lst') hm' with ⟨lst'', hm'', hs''⟩
          exact ⟨lst'', hm'', hs'' hn'⟩
        · exact c5 n ℓ hm' hp
      · intro q hq n hn
        rcases c6 q hq n hn with ⟨q0, hq0, heq, hn0⟩ | ⟨h1, h2⟩
        · rcases appendGroup_source hq0 hn0 with ⟨q1, hq1, heq1, hn1⟩ | ⟨heq1, rfl⟩
          · exact Or.inl ⟨q1, hq1, by rw [heq1, heq], hn1⟩
          · refine Or.inr ⟨?_, hkb⟩
            have : q.1 = e.2 := by rw [← heq, heq1]
            rw [this]
            exact List.mem_cons_self _ _
        · exact Or.inr ⟨List.mem_cons_of_mem _ h1, h2⟩

theorem groupByLevel_inv {levels : List (String × Nat)} {pos0 : List (String × Pos)}
    (hlv : (keysOf levels).Nodup) :
    (((groupByLevel levels pos0).map (fun q => q.1)).Nodup ∧
      (∀ q ∈ groupByLevel levels pos0, (q.2 : List String).Nodup) ∧
      (groupByLevel levels pos0).Pairwise (fun g1 g2 => ∀ m, m ∈ g1.2 → m ∉ g2.2) ∧
      (∀ n ℓ, (n, ℓ) ∈ levels → keyMem pos0 n = false → ∃ lst,
        (ℓ, lst) ∈ groupByLevel levels pos0 ∧ n ∈ lst) ∧
      (∀ q ∈ groupByLevel levels pos0, ∀ n ∈ q.2,
        (n, q.1) ∈ levels ∧ keyMem pos0 n = false)) := by
  rcases groupFold_inv levels [] hlv (by simp) (by simp) (by simp) (by simp) with
    ⟨c1, c2, c3, _, c5, c6⟩
  refine ⟨c1, c2, c3, c5, ?_⟩
  intro q hq n hn
  rcases c6 q hq n hn with ⟨q0, hq0, _, _⟩ | h
  · exact absurd hq0 (List.not_mem_nil _)
  · exact h

theorem eq_of_mem_nodup_groupKeys {g : List (Nat × List String)} {ℓ : Nat}
    {l1 l2 : List String} (hnd : (g.map (fun q => q.1)).Nodup)
    (h1 : (ℓ, l1) ∈ g) (h2 : (ℓ, l2) ∈ g) : l1 = l2 := by
  induction g with
  | nil => exact absurd h1 (List.not_mem_nil _)
  | cons q rest ih =>
    simp only [List.map_cons, List.nodup_cons] at hnd
    rcases List.mem_cons.mp h1 with rfl | h1'
    · rcases List.mem_cons.mp h2 with he | h2'
      · exact (Prod.mk.injEq _ _ _ _ |>.mp he.symm).2
      · exfalso
        exact hnd.1 (List.mem_map.mpr ⟨(ℓ, l2), h2', rfl⟩)
    · rcases List.mem_cons.mp h2 with rfl | h2'
      · exfalso
        exact hnd.1 (List.mem_map.mpr ⟨(ℓ, l1), h1', rfl⟩)
      · exact ih hnd.2 h1' h2'

/-! ## Lemmas: breadth-first search -/

theorem keysOf_append {α : Type} {d e : List (String × α)} :
    keysOf (d ++ e) = keysOf d ++ keysOf e := by
  simp [keysOf]

theorem keysOf_levelMap {frontier : List String} {level : Nat} :
    keysOf (frontier.map (fun v => (v, level))) = frontier := by
  induction frontier with
  | nil => rfl
  | cons v l ih =>
    simp only [keysOf, List.map_cons] at ih ⊢
    rw [ih]

theorem mem_keysOf_iff {α : Type} {d : List (String × α)} {k : String} :
    k ∈ keysOf d ↔ ∃ v, (k, v) ∈ d := by
  rw [← keyMem_iff_keys, keyMem_iff]

theorem mem_collect {edges : List (String × String)} {frontier : List String} :
    ∀ {acc : List String} {x : String},
    x ∈ frontier.foldl (fun acc v => acc ++ successors edges v) acc ↔
      x ∈ acc ∨ ∃ v ∈ frontier, x ∈ successors edges v := by
  induction frontier with
  | nil => intro acc x; simp
  | cons v frontier ih =>
    intro acc x
    rw [List.foldl_cons, ih]
    simp only [List.mem_append, List.mem_cons]
    constructor
    · rintro ((h | h) | ⟨w, hw, hx⟩)
      · exact Or.inl h
      · exact Or.inr ⟨v, Or.inl rfl, h⟩
      · exact Or.inr ⟨w, Or.inr hw, hx⟩
    · rintro (h | ⟨w, rfl | hw, hx⟩)
      · exact Or.inl (Or.inl h)
      · exact Or.inl (Or.inr hx)
      · exact Or.inr ⟨w, hw, hx⟩

theorem bfsAux_succ {edges : List (String × String)} {fuel : Nat}
    {out : List (String × Nat)} {frontier : List String} {level : Nat} :
    bfsAux edges (fuel + 1) out frontier level =
      if frontier.isEmpty then out
      else bfsAux edges fuel (out ++ frontier.map (fun v => (v, level)))
        (((frontier.foldl (fun acc v => acc ++ successors edges v) []).filter
          (fun v => !(keyMem (out ++ frontier.map (fun v => (v, level))) v))).foldl
            insertOrdered [])
        (level + 1) := rfl

theorem nodup_length_le {l U : List String} (hl : l.Nodup) (hsub : l ⊆ U) :
    l.length ≤ U.length := by
  classical
  calc l.length = l.toFinset.card := (List.toFinset_card_of_nodup hl).symm
    _ ≤ U.toFinset.card :=
      Finset.card_le_card (fun x hx => List.mem_toFinset.mpr (hsub (List.mem_toFinset.mp hx)))
    _ ≤ U.length := List.toFinset_card_le U

theorem bfsAux_sound {edges : List (String × String)} {src : String} :
    ∀ (fuel : Nat) (out : List (String × Nat)) (frontier : List String) (level : Nat),
    (∀ q ∈ out, Reaches edges src q.1) → (∀ v ∈ frontier, Reaches edges src v) →
    ∀ q ∈ bfsAux edges fuel out frontier level, Reaches edges src q.1 := by
  intro fuel
  induction fuel with
  | zero => intro out frontier level hout _ q hq; exact hout q hq
  | succ fuel ih =>
    intro out frontier level hout hfr q hq
    rw [bfsAux_succ] at hq
    by_cases hemp : frontier.isEmpty
    · rw [if_pos hemp] at hq
      exact hout q hq
    · rw [if_neg hemp] at hq
      refine ih _ _ _ ?_ ?_ q hq
      · intro q' hq'
        rcases List.mem_append.mp hq' with h | h
        · exact hout q' h
        · rcases List.mem_map.mp h with ⟨v, hv, he⟩
          rw [← he]
          exact hfr v hv
      · intro v hv
        rcases mem_foldl_insertOrdered.mp hv with h | h
        · exact absurd h (List.not_mem_nil v)
        · have := List.mem_of_mem_filter h
          rcases mem_collect.mp (by simpa using this) with h' | ⟨w, hw, hx⟩
          · exact absurd h' (List.not_mem_nil v)
          · exact Relation.ReflTransGen.tail (hfr w hw) (mem_successors.mp hx)

theorem bfsAux_closed {edges : List (String × String)} {U : List String}
    (hUT : ∀ e ∈ edges, e.2 ∈ U) :
    ∀ (fuel : Nat) (out : List (String × Nat)) (frontier : List String) (level : Nat),
    (keysOf out ++ frontier).Nodup →
    (∀ v ∈ frontier, v ∈ U) → (∀ k ∈ keysOf out, k ∈ U) →
    (∀ u ∈ keysOf out, ∀ v, v ∈ successors edges u → v ∈ keysOf out ∨ v ∈ frontier) →
    U.length < (keysOf out).length + fuel →
    ((∀ k ∈ keysOf out, k ∈ keysOf (bfsAux edges fuel out frontier level)) ∧
      (∀ v ∈ frontier, v ∈ keysOf (bfsAux edges fuel out frontier level)) ∧
      (∀ u ∈ keysOf (bfsAux edges fuel out frontier level), ∀ v, v ∈ successors edges u →
        v ∈ keysOf (bfsAux edges fuel out frontier level)) ∧
      (keysOf (bfsAux edges fuel out frontier level)).Nodup) := by
  intro fuel
  induction fuel with
  | zero =>
    intro out frontier level hnd hfU hoU hcl hcard
    exfalso
    have h1 : (keysOf out).Nodup := (List.nodup_append.mp hnd).1
    have := nodup_length_le h1 hoU
    omega
  | succ fuel ih =>
    intro out frontier level hnd hfU hoU hcl hcard
    rw [bfsAux_succ]
    by_cases hemp : frontier.isEmpty
    · rw [if_pos hemp]
      have hfr : frontier = [] := List.isEmpty_iff.mp hemp
      subst hfr
      refine ⟨fun k hk => hk, by simp, fun u hu v hv => ?_, (List.nodup_append.mp hnd).1⟩
      rcases hcl u hu v hv with h | h
      · exact h
      · exact absurd h (List.not_mem_nil v)
    · rw [if_neg hemp]
      have hfrne : frontier ≠ [] := fun hc => hemp (by rw [hc]; rfl)
      set outE := out ++ frontier.map (fun v => (v, level)) with houtE
      set nextE := ((frontier.foldl (fun acc v => acc ++ successors edges v) []).filter
        (fun v => !(keyMem outE v))).foldl insertOrdered [] with hnextE
      have hkout' : keysOf outE = keysOf out ++ frontier := by
        rw [houtE, keysOf_append, keysOf_levelMap]
      have hmemnext : ∀ {x : String}, x ∈ nextE ↔
          ((∃ v ∈ frontier, x ∈ successors edges v) ∧ keyMem outE x = false) := by
        intro x
        rw [hnextE, mem_foldl_insertOrdered]
        simp only [List.mem_nil_iff, false_or]
        rw [List.mem_filter, mem_collect]
        simp only [List.mem_nil_iff, false_or, Bool.not_eq_true']
      have inv1 : (keysOf outE ++ nextE).Nodup := by
        rw [hkout', List.nodup_append]
        refine ⟨hnd, nodup_foldl_insertOrdered List.nodup_nil, ?_⟩
        intro x hx hx'
        have hfalse := (hmemnext.mp hx').2
        rw [show keyMem outE x = true by
          rw [keyMem_iff_keys, hkout']
          exact hx] at hfalse
        exact absurd hfalse (by simp)
      have inv2 : ∀ v ∈ nextE, v ∈ U := by
        intro v hv
        rcases (hmemnext.mp hv).1 with ⟨w, _, hx⟩
        rcases List.mem_map.mp (successors_sub_targets hx) with ⟨e, he, hee⟩
        rw [← hee]
        exact hUT e he
      have inv3 : ∀ k ∈ keysOf outE, k ∈ U := by
        intro k hk
        rw [hkout'] at hk
        rcases List.mem_append.mp hk with h | h
        · exact hoU k h
        · exact hfU k h
      have inv4 : ∀ u ∈ keysOf outE, ∀ v, v ∈ successors edges u →
          v ∈ keysOf outE ∨ v ∈ nextE := by
        intro u hu v hv
        rw [hkout'] at hu
        rcases List.mem_append.mp hu with h | h
        · rcases hcl u h v hv with h' | h'
          · exact Or.inl (by rw [hkout']; exact List.mem_append.mpr (Or.inl h'))
          · exact Or.inl (by rw [hkout']; exact List.mem_append.mpr (Or.inr h'))
        · by_cases hvk : keyMem outE v = true
          · exact Or.inl (keyMem_iff_keys.mp hvk)
          · refine Or.inr (hmemnext.mpr ⟨⟨u, h, hv⟩, ?_⟩)
            cases hb : keyMem outE v
            · rfl
            · exact absurd hb hvk
      have inv5 : U.length < (keysOf outE).length + fuel := by
        rw [hkout', List.length_append]
        have : 1 ≤ frontier.length := by
          cases frontier with
          | nil => exact absurd rfl hfrne
          | cons a l => simp
        omega
      obtain ⟨c1, c2, c3, c4⟩ := ih outE nextE (level + 1) inv1 inv2 inv3 inv4 inv5
      refine ⟨?_, ?_, c3, c4⟩
      · intro k hk
        exact c1 k (by rw [hkout']; exact List.mem_append.mpr (Or.inl hk))
      · intro v hv
        exact c1 v (by rw [hkout']; exact List.mem_append.mpr (Or.inr hv))

theorem mem_graphUniverse {edges : List (String × String)} {src x : String} :
    x ∈ graphUniverse edges src ↔ x = src ∨ x ∈ edges.map (fun e => e.2) := by
  unfold graphUniverse
  rw [mem_foldl_insertOrdered]
  simp only [List.mem_nil_iff, false_or, List.mem_cons]

theorem nodup_graphUniverse {edges : List (String × String)} {src : String} :
    (graphUniverse edges src).Nodup :=
  nodup_foldl_insertOrdered List.nodup_nil

theorem sssp_closed {edges : List (String × String)} {src : String} :
    (src ∈ keysOf (sssp edges src)) ∧
      (∀ u ∈ keysOf (sssp edges src), ∀ v, v ∈ successors edges u →
        v ∈ keysOf (sssp edges src)) ∧
      (keysOf (sssp edges src)).Nodup := by
  have hUT : ∀ e ∈ edges, e.2 ∈ graphUniverse edges src := by
    intro e he
    exact mem_graphUniverse.mpr (Or.inr (List.mem_map.mpr ⟨e, he, rfl⟩))
  obtain ⟨_, c2, c3, c4⟩ := bfsAux_closed hUT ((graphUniverse edges src).length + 1)
    [] [src] 0
    (by simp [keysOf])
    (by
      intro v hv
      rw [List.mem_singleton] at hv
      subst hv
      exact mem_graphUniverse.mpr (Or.inl rfl))
    (by intro k hk; exact absurd hk (by simp [keysOf]))
    (by intro u hu; exact absurd hu (by simp [keysOf]))
    (by simp only [keysOf, List.map_nil, List.length_nil]; omega)
  exact ⟨c2 src (List.mem_singleton.mpr rfl), c3, c4⟩

theorem nodup_keys_sssp {edges : List (String × String)} {src : String} :
    (keysOf (sssp edges src)).Nodup := sssp_closed.2.2

theorem mem_keys_sssp_iff {edges : List (String × String)} {src n : String} :
    n ∈ keysOf (sssp edges src) ↔ Reaches edges src n := by
  constructor
  · intro h
    rcases mem_keysOf_iff.mp h with ⟨l, hl⟩
    exact bfsAux_sound _ [] [src] 0 (by simp)
      (by
        intro v hv
        rw [List.mem_singleton] at hv
        subst hv
        exact Relation.ReflTransGen.refl) (n, l) hl
  · intro h
    obtain ⟨hsrc, hclosed, _⟩ := @sssp_closed edges src
    induction h with
    | refl => exact hsrc
    | tail hab hbc ihab => exact hclosed _ ihab _ (mem_successors.mpr hbc)

theorem bfsAux_levels {edges : List (String × String)} :
    ∀ (fuel : Nat) (out : List (String × Nat)) (frontier : List String) (level : Nat)
    (v : String) (l : Nat), (v, l) ∈ bfsAux edges fuel out frontier level →
    (v, l) ∈ out ∨ (l = level ∧ v ∈ frontier) ∨ l > level := by
  intro fuel
  induction fuel with
  | zero => intro out frontier level v l h; exact Or.inl h
  | succ fuel ih =>
    intro out frontier level v l h
    rw [bfsAux_succ] at h
    by_cases hemp : frontier.isEmpty
    · rw [if_pos hemp] at h
      exact Or.inl h
    · rw [if_neg hemp] at h
      rcases ih _ _ _ v l h with h' | ⟨h1, h2⟩ | h' 
      · rcases List.mem_append.mp h' with h'' | h''
        · exact Or.inl h''
        · rcases List.mem_map.mp h'' with ⟨w, hw, he⟩
          have hv : w = v := congrArg Prod.fst he
          have hl : level = l := congrArg Prod.snd he
          subst hv
          exact Or.inr (Or.inl ⟨hl.symm, hw⟩)
      · exact Or.inr (Or.inr (by omega))
      · exact Or.inr (Or.inr (by omega))

theorem sssp_level_zero {edges : List (String × String)} {src v : String}
    (h : (v, 0) ∈ sssp edges src) : v = src := by
  rcases bfsAux_levels _ [] [src] 0 v 0 h with h' | ⟨_, h2⟩ | h'
  · exact absurd h' (List.not_mem_nil _)
  · exact List.mem_singleton.mp h2
  · omega

theorem inTree_of_reaches {edges : List (String × String)} {a n : String}
    (h : Reaches edges a n) (hne : n ≠ a) : inTree edges a = true := by
  rcases Relation.ReflTransGen.cases_head h with he | ⟨c, hc, _⟩
  · exact absurd he.symm hne
  · exact inTree_of_edge_fst hc

/-! ## Lemmas: merged level map -/

theorem mergedLevels_fold_keys {edges : List (String × String)} :
    ∀ (actors : List String) (acc : List (String × Nat)) (n : String),
    n ∈ keysOf (actors.foldl
      (fun levels a => if inTree edges a then dictUpdate levels (sssp edges a) else levels)
      acc) ↔
      n ∈ keysOf acc ∨ ∃ a ∈ actors, inTree edges a = true ∧ n ∈ keysOf (sssp edges a) := by
  intro actors
  induction actors with
  | nil => intro acc n; simp
  | cons a actors ih =>
    intro acc n
    rw [List.foldl_cons]
    by_cases h : inTree edges a
    · rw [if_pos h, ih, mem_keys_dictUpdate]
      constructor
      · rintro ((h1 | h1) | h1)
        · exact Or.inl h1
        · exact Or.inr ⟨a, List.mem_cons_self _ _, h, h1⟩
        · rcases h1 with ⟨b, hb, h2, h3⟩
          exact Or.inr ⟨b, List.mem_cons_of_mem _ hb, h2, h3⟩
      · rintro (h1 | ⟨b, hb, h2, h3⟩)
        · exact Or.inl (Or.inl h1)
        · rcases List.mem_cons.mp hb with rfl | hb'
          · exact Or.inl (Or.inr h3)
          · exact Or.inr ⟨b, hb', h2, h3⟩
    · rw [if_neg h, ih]
      constructor
      · rintro (h1 | ⟨b, hb, h2, h3⟩)
        · exact Or.inl h1
        · exact Or.inr ⟨b, List.mem_cons_of_mem _ hb, h2, h3⟩
      · rintro (h1 | ⟨b, hb, h2, h3⟩)
        · exact Or.inl h1
        · rcases List.mem_cons.mp hb with rfl | hb'
          · rw [h2] at h
            exact absurd rfl h
          · exact Or.inr ⟨b, hb', h2, h3⟩

theorem mem_keys_mergedLevels {actors : List String} {edges : List (String × String)}
    {n : String} :
    n ∈ keysOf (mergedLevels actors edges) ↔
      ∃ a ∈ actors, inTree edges a = true ∧ n ∈ keysOf (sssp edges a) := by
  unfold mergedLevels
  rw [mergedLevels_fold_keys]
  simp [keysOf]

theorem nodup_keys_mergedLevels {actors : List String} {edges : List (String × String)} :
    (keysOf (mergedLevels actors edges)).Nodup := by
  unfold mergedLevels
  have key : ∀ (acts : List String) (acc : List (String × Nat)), (keysOf acc).Nodup →
      (keysOf (acts.foldl
        (fun levels a => if inTree edges a then dictUpdate levels (sssp edges a) else levels)
        acc)).Nodup := by
    intro acts
    induction acts with
    | nil => intro acc h; exact h
    | cons a acts ih =>
      intro acc h
      rw [List.foldl_cons]
      by_cases hin : inTree edges a
      · rw [if_pos hin]
        exact ih _ (nodup_keys_dictUpdate h)
      · rw [if_neg hin]
        exact ih _ h
  exact key actors [] (by simp [keysOf])

theorem mergedLevels_get {actors : List String} {edges : List (String × String)}
    {n : String} :
    dictGet? (mergedLevels actors edges) n = lastLevelOf actors edges n := by
  unfold mergedLevels lastLevelOf
  have key : ∀ (acts : List String) (acc : List (String × Nat)),
      dictGet? (acts.foldl
        (fun levels a => if inTree edges a then dictUpdate levels (sssp edges a) else levels)
        acc) n =
      acts.foldl
        (fun o a => if inTree edges a then (dictGet? (sssp edges a) n).or o else o)
        (dictGet? acc n) := by
    intro acts
    induction acts with
    | nil => intro acc; rfl
    | cons a acts ih =>
      intro acc
      rw [List.foldl_cons, List.foldl_cons]
      by_cases h : inTree edges a
      · rw [if_pos h, if_pos h, ih, dictGet?_update nodup_keys_sssp]
      · rw [if_neg h, if_neg h, ih]
  exact key actors []

theorem lastLevelOf_some {actors : List String} {edges : List (String × String)}
    {n : String} {ℓ : Nat} (h : lastLevelOf actors edges n = some ℓ) :
    ∃ a ∈ actors, dictGet? (sssp edges a) n = some ℓ := by
  unfold lastLevelOf at h
  have key : ∀ (acts : List String) (o : Option Nat),
      acts.foldl (fun o a => if inTree edges a then (dictGet? (sssp edges a) n).or o else o) o
        = some ℓ →
      (∃ a ∈ acts, dictGet? (sssp edges a) n = some ℓ) ∨ o = some ℓ := by
    intro acts
    induction acts with
    | nil => intro o h; exact Or.inr h
    | cons a acts ih =>
      intro o h
      rw [List.foldl_cons] at h
      by_cases hin : inTree edges a
      · rw [if_pos hin] at h
        rcases ih _ h with ⟨b, hb, hget⟩ | h'
        · exact Or.inl ⟨b, List.mem_cons_of_mem _ hb, hget⟩
        · cases hget : dictGet? (sssp edges a) n with
          | none =>
            rw [hget] at h'
            simp only [Option.or] at h'
            exact Or.inr h'
          | some v =>
            rw [hget] at h'
            simp only [Option.or] at h'
            exact Or.inl ⟨a, List.mem_cons_self _ _, by rw [hget, h']⟩
      · rw [if_neg hin] at h
        rcases ih _ h with ⟨b, hb, hget⟩ | h'
        · exact Or.inl ⟨b, List.mem_cons_of_mem _ hb, hget⟩
        · exact Or.inr h'
  rcases key actors none h with h' | h'
  · exact h'
  · exact absurd h' (by simp)

theorem mergedLevels_entry {actors : List String} {edges : List (String × String)}
    {n : String} {ℓ : Nat} (h : (n, ℓ) ∈ mergedLevels actors edges) :
    ∃ a ∈ actors, (n, ℓ) ∈ sssp edges a := by
  have hget : dictGet? (mergedLevels actors edges) n = some ℓ :=
    (dictGet?_some_iff_mem nodup_keys_mergedLevels).mpr h
  rw [mergedLevels_get] at hget
  rcases lastLevelOf_some hget with ⟨a, ha, hget'⟩
  exact ⟨a, ha, (dictGet?_some_iff_mem nodup_keys_sssp).mp hget'⟩

/-! ## Lemmas: the parser -/

theorem parseGo_nil {nodes : List String} {edges : List (String × String)} :
    parseGo nodes edges [] = .ok (nodes, edges) := rfl

theorem parseGo_cons {nodes : List String} {edges : List (String × String)}
    {line : String} {rest : List String} :
    parseGo nodes edges (line :: rest) =
      if (splitArrow line.data).length = 1 then
        parseGo (insertOrdered nodes (pyStrip line)) edges rest
      else if (splitArrow line.data).length = 2 then
        parseGo
          (insertOrdered (insertOrdered nodes (pyStrip ⟨(splitArrow line.data).getD 0 []⟩))
            (pyStrip ⟨(splitArrow line.data).getD 1 []⟩))
          (edges ++ [(pyStrip ⟨(splitArrow line.data).getD 0 []⟩,
            pyStrip ⟨(splitArrow line.data).getD 1 []⟩)]) rest
      else .error "ValueError: too many values to unpack (expected 2)" := rfl

theorem parseGo_inv :
    ∀ (lines : List String) (nodes0 : List String) (edges0 : List (String × String))
    (ns : List String) (es : List (String × String)),
    parseGo nodes0 edges0 lines = .ok (ns, es) →
    ((∀ x ∈ nodes0, x ∈ ns) ∧
      (∀ e ∈ edges0, e ∈ es) ∧
      (nodes0.Nodup → ns.Nodup) ∧
      ((∀ e ∈ edges0, e.1 ∈ nodes0 ∧ e.2 ∈ nodes0) → ∀ e ∈ es, e.1 ∈ ns ∧ e.2 ∈ ns) ∧
      (∀ line ∈ lines, (splitArrow line.data).length = 1 → pyStrip line ∈ ns) ∧
      es.length = edges0.length +
        (lines.filter (fun l => (splitArrow l.data).length != 1)).length) := by
  intro lines
  induction lines with
  | nil =>
    intro nodes0 edges0 ns es h
    rw [parseGo_nil] at h
    have h1 : nodes0 = ns := congrArg Prod.fst (Except.ok.inj h)
    have h2 : edges0 = es := congrArg Prod.snd (Except.ok.inj h)
    subst h1
    subst h2
    exact ⟨fun x hx => hx, fun e he => he, fun h => h, fun h => h,
      fun line hl => absurd hl (List.not_mem_nil _), by simp⟩
  | cons line rest ih =>
    intro nodes0 edges0 ns es h
    rw [parseGo_cons] at h
    by_cases h1 : (splitArrow line.data).length = 1
    · rw [if_pos h1] at h
      obtain ⟨c1, c2, c3, c4, c5, c6⟩ := ih _ _ _ _ h
      refine ⟨?_, c2, ?_, ?_, ?_, ?_⟩
      · intro x hx
        exact c1 x (subset_insertOrdered hx)
      · intro hnd
        exact c3 (nodup_insertOrdered hnd)
      · intro hend
        refine c4 ?_
        intro e he
        exact ⟨subset_insertOrdered (hend e he).1, subset_insertOrdered (hend e he).2⟩
      · intro l hl hsp
        rcases List.mem_cons.mp hl with rfl | hl'
        · exact c1 _ self_mem_insertOrdered
        · exact c5 l hl' hsp
      · rw [c6, List.filter_cons]
        rw [show ((splitArrow line.data).length != 1) = false by simpa using h1]
        rfl
    · rw [if_neg h1] at h
      by_cases h2 : (splitArrow line.data).length = 2
      · rw [if_pos h2] at h
        obtain ⟨c1, c2, c3, c4, c5, c6⟩ := ih _ _ _ _ h
        refine ⟨?_, ?_, ?_, ?_, ?_, ?_⟩
        · intro x hx
          exact c1 x (subset_insertOrdered (subset_insertOrdered hx))
        · intro e he
          exact c2 e (List.mem_append.mpr (Or.inl he))
        · intro hnd
          exact c3 (nodup_insertOrdered (nodup_insertOrdered hnd))
        · intro hend
          refine c4 ?_
          intro e he
          rcases List.mem_append.mp he with he' | he'
          · exact ⟨subset_insertOrdered (subset_insertOrdered (hend e he').1),
              subset_insertOrdered (subset_insertOrdered (hend e he').2)⟩
          · rw [List.mem_singleton] at he'
            subst he'
            exact ⟨subset_insertOrdered self_mem_insertOrdered, self_mem_insertOrdered⟩
        · intro l hl hsp
          rcases List.mem_cons.mp hl with rfl | hl'
          · exact absurd hsp h1
          · exact c5 l hl' hsp
        · rw [c6, List.filter_cons]
          rw [show ((splitArrow line.data).length != 1) = true by simpa using h1]
          simp only [if_true, List.length_append, List.length_cons, List.length_nil]
          omega
      · rw [if_neg h2] at h
        exact absurd h (by simp)

theorem parse_ok_inv {s : String} {ns : List String} {es : List (String × String)}
    (h : parse s = .ok (ns, es)) :
    (ns.Nodup ∧
      (∀ e ∈ es, e.1 ∈ ns ∧ e.2 ∈ ns) ∧
      (∀ line ∈ (splitNl (pyStrip s).data).map String.mk,
        (splitArrow line.data).length = 1 → pyStrip line ∈ ns) ∧
      es.length = (((splitNl (pyStrip s).data).map String.mk).filter
        (fun l => (splitArrow l.data).length != 1)).length) := by
  unfold parse at h
  obtain ⟨_, _, c3, c4, c5, c6⟩ := parseGo_inv _ _ _ _ _ h
  exact ⟨c3 List.nodup_nil, c4 (fun e he => absurd he (List.not_mem_nil _)), c5, by
    rw [c6]
    simp⟩

/-! ## Lemmas: calculate_tree_positions -/

theorem ctp_top_eq {nodes : List String} {edges : List (String × String)} {w h sf : ℚ} :
    calculate_tree_positions nodes edges "top-center" w h sf =
      placeGroups
        (placeRow (fun i => ((i : ℚ) * (w * sf) -
          (((nodes.filter isActor).length : ℚ) - 1) * (w * sf) / 2, 0))
          [] (pySorted (nodes.filter isActor)) 0)
        (fun ℓ len i => ((i : ℚ) * (w * sf) - (len - 1) * (w * sf) / 2, -(ℓ : ℚ) * (h * sf)))
        (groupByLevel (mergedLevels (nodes.filter isActor) edges)
          (placeRow (fun i => ((i : ℚ) * (w * sf) -
            (((nodes.filter isActor).length : ℚ) - 1) * (w * sf) / 2, 0))
            [] (pySorted (nodes.filter isActor)) 0)) := rfl

theorem ctp_left_eq {nodes : List String} {edges : List (String × String)} {w h sf : ℚ} :
    calculate_tree_positions nodes edges "center-left" w h sf =
      placeGroups
        (placeRow (fun i => (0, -(i : ℚ) * (h * sf))) [] (pySorted (nodes.filter isActor)) 0)
        (fun ℓ len i => ((ℓ : ℚ) * (w * sf), -(i : ℚ) * (h * sf) + (len - 1) * (h * sf) / 2))
        (groupByLevel (mergedLevels (nodes.filter isActor) edges)
          (placeRow (fun i => (0, -(i : ℚ) * (h * sf)))
            [] (pySorted (nodes.filter isActor)) 0)) := rfl

theorem ctp_other_eq {nodes : List String} {edges : List (String × String)}
    {mode : String} {w h sf : ℚ} (h1 : mode ≠ "top-center") (h2 : mode ≠ "center-left") :
    calculate_tree_positions nodes edges mode w h sf = [] := by
  unfold calculate_tree_positions
  rw [if_neg (by simpa using h1), if_neg (by simpa using h2)]

theorem mem_keys_actorRow {nodes : List String} {coordA : Nat → Pos} {n : String} :
    n ∈ keysOf (placeRow coordA [] (pySorted (nodes.filter isActor)) 0) ↔
      isActor n = true ∧ n ∈ nodes := by
  rw [mem_keys_placeRow, mem_pySorted, List.mem_filter]
  simp only [keysOf, List.map_nil, List.mem_nil_iff, false_or]
  tauto

theorem nodup_actorRow_keys {nodes : List String} {coordA : Nat → Pos} :
    (keysOf (placeRow coordA [] (pySorted (nodes.filter isActor)) 0)).Nodup :=
  nodup_keys_placeRow (by simp [keysOf])

/-- Level-grouped nodes never sit at level 0: level 0 belongs to a BFS source,
which is an actor from the node list and hence already positioned. -/
theorem grouped_level_pos {nodes : List String} {edges : List (String × String)}
    {coordA : Nat → Pos} {g : Nat × List String}
    (hg : g ∈ groupByLevel (mergedLevels (nodes.filter isActor) edges)
      (placeRow coordA [] (pySorted (nodes.filter isActor)) 0))
    (hne : g.2 ≠ []) : 1 ≤ g.1 := by
  obtain ⟨_, _, _, _, c5⟩ :=
    @groupByLevel_inv (mergedLevels (nodes.filter isActor) edges)
      (placeRow coordA [] (pySorted (nodes.filter isActor)) 0)
      nodup_keys_mergedLevels
  rcases List.exists_mem_of_ne_nil _ hne with ⟨n', hn'⟩
  obtain ⟨hlev, hkm⟩ := c5 g hg n' hn'
  rcases mergedLevels_entry hlev with ⟨a, ha, hsp⟩
  by_contra hlt
  have hz : g.1 = 0 := by omega
  rw [hz] at hsp
  have : n' = a := sssp_level_zero hsp
  subst this
  have : n' ∈ keysOf (placeRow coordA [] (pySorted (nodes.filter isActor)) 0) := by
    rw [mem_keys_actorRow]
    exact ⟨(List.mem_filter.mp ha).2, (List.mem_filter.mp ha).1⟩
  rw [← keyMem_iff_keys] at this
  rw [this] at hkm
  exact absurd hkm (by simp)

/-- Key membership of the full solved position dict (either axis mode). -/
theorem mem_keys_ctp_generic {nodes : List String} {edges : List (String × String)}
    {coordA : Nat → Pos} {coordOf : Nat → ℚ → Nat → Pos} {n : String} :
    n ∈ keysOf (placeGroups (placeRow coordA [] (pySorted (nodes.filter isActor)) 0) coordOf
      (groupByLevel (mergedLevels (nodes.filter isActor) edges)
        (placeRow coordA [] (pySorted (nodes.filter isActor)) 0))) ↔
      ((isActor n = true ∧ n ∈ nodes) ∨
        ∃ a ∈ nodes, isActor a = true ∧ Reaches edges a n) := by
  obtain ⟨_, _, _, c4, c5⟩ :=
    @groupByLevel_inv (mergedLevels (nodes.filter isActor) edges)
      (placeRow coordA [] (pySorted (nodes.filter isActor)) 0)
      nodup_keys_mergedLevels
  rw [mem_keys_placeGroups]
  constructor
  · rintro (h | ⟨g, hg, hn⟩)
    · exact Or.inl (mem_keys_actorRow.mp h)
    · obtain ⟨hlev, _⟩ := c5 g hg n hn
      have : n ∈ keysOf (mergedLevels (nodes.filter isActor) edges) :=
        mem_keysOf_iff.mpr ⟨g.1, hlev⟩
      rcases mem_keys_mergedLevels.mp this with ⟨a, ha, _, hsp⟩
      refine Or.inr ⟨a, (List.mem_filter.mp ha).1, (List.mem_filter.mp ha).2, ?_⟩
      exact mem_keys_sssp_iff.mp hsp
  · rintro (⟨h1, h2⟩ | ⟨a, ha, hact, hre⟩)
    · exact Or.inl (mem_keys_actorRow.mpr ⟨h1, h2⟩)
    · by_cases hk : keyMem (placeRow coordA [] (pySorted (nodes.filter isActor)) 0) n
      · exact Or.inl (keyMem_iff_keys.mp hk)
      · by_cases hna : n = a
        · exfalso
          subst hna
          refine hk ?_
          rw [keyMem_iff_keys, mem_keys_actorRow]
          exact ⟨hact, ha⟩
        · have hin : inTree edges a = true := inTree_of_reaches hre hna
          have hsp : n ∈ keysOf (sssp edges a) := mem_keys_sssp_iff.mpr hre
          have hml : n ∈ keysOf (mergedLevels (nodes.filter isActor) edges) :=
            mem_keys_mergedLevels.mpr ⟨a, List.mem_filter.mpr ⟨ha, hact⟩, hin, hsp⟩
          rcases mem_keysOf_iff.mp hml with ⟨ℓ, hml'⟩
          have hkm : keyMem (placeRow coordA [] (pySorted (nodes.filter isActor)) 0) n
              = false := by
            cases hb : keyMem (placeRow coordA [] (pySorted (nodes.filter isActor)) 0) n
            · rfl
            · exact absurd hb hk
          rcases c4 n ℓ hml' hkm with ⟨lst, hmem, hnl⟩
          exact Or.inr ⟨(ℓ, lst), hmem, hnl⟩

/-- A positioned actor from the node list keeps its actor-row coordinate. -/
theorem actor_get_generic {nodes : List String} {edges : List (String × String)}
    {coordA : Nat → Pos} {coordOf : Nat → ℚ → Nat → Pos} {a : String} {pa : Pos}
    (hact : isActor a = true) (hmem : a ∈ nodes)
    (hget : dictGet? (placeGroups (placeRow coordA [] (pySorted (nodes.filter isActor)) 0)
      coordOf (groupByLevel (mergedLevels (nodes.filter isActor) edges)
        (placeRow coordA [] (pySorted (nodes.filter isActor)) 0))) a = some pa) :
    ∃ j, pa = coordA j := by
  obtain ⟨_, _, _, _, c5⟩ :=
    @groupByLevel_inv (mergedLevels (nodes.filter isActor) edges)
      (placeRow coordA [] (pySorted (nodes.filter isActor)) 0)
      nodup_keys_mergedLevels
  have hnot : ∀ g ∈ groupByLevel (mergedLevels (nodes.filter isActor) edges)
      (placeRow coordA [] (pySorted (nodes.filter isActor)) 0), a ∉ g.2 := by
    intro g hg hc
    obtain ⟨_, hkm⟩ := c5 g hg a hc
    have : a ∈ keysOf (placeRow coordA [] (pySorted (nodes.filter isActor)) 0) :=
      mem_keys_actorRow.mpr ⟨hact, hmem⟩
    rw [← keyMem_iff_keys, hkm] at this
    exact absurd this (by simp)
  rw [placeGroups_get_notMem hnot] at hget
  rcases placeRow_get_shape hget with h' | ⟨j, _, hp⟩
  · exact absurd h' (by simp [dictGet?])
  · exact ⟨0 + j, hp⟩

/-- A positioned non-actor node carries a level-row coordinate of level `≥ 1`. -/
theorem grouped_get_generic {nodes : List String} {edges : List (String × String)}
    {coordA : Nat → Pos} {coordOf : Nat → ℚ → Nat → Pos} {n : String} {pn : Pos}
    (hact : isActor n = false)
    (hget : dictGet? (placeGroups (placeRow coordA [] (pySorted (nodes.filter isActor)) 0)
      coordOf (groupByLevel (mergedLevels (nodes.filter isActor) edges)
        (placeRow coordA [] (pySorted (nodes.filter isActor)) 0))) n = some pn) :
    ∃ ℓ len j, 1 ≤ ℓ ∧ pn = coordOf ℓ len j := by
  have hnotk : dictGet? (placeRow coordA [] (pySorted (nodes.filter isActor)) 0) n = none := by
    rw [dictGet?_eq_none_iff]
    refine keyMem_notMem ?_
    rw [mem_keys_actorRow]
    rintro ⟨h1, _⟩
    rw [hact] at h1
    exact absurd h1 (by simp)
  rcases placeGroups_get_shape hget with h' | ⟨g, hg, j, hj, hp⟩
  · rw [hnotk] at h'
    exact absurd h' (by simp)
  · refine ⟨g.1, (g.2.length : ℚ), j, ?_, hp⟩
    refine grouped_level_pos hg ?_
    intro hc
    rw [hc] at hj
    simp at hj

/-- **C6.** For every parsed input and either documented axis mode, with the
pipeline's default spacing: every positioned actor node from the node set lies on
the designated actor axis (`y = 0` in top-center mode, `x = 0` in center-left
mode), and its coordinate pair never equals the coordinate of any positioned
non-actor node (which is placed through the level-grouping path). -/
theorem C6_actor_axis_separation (input mode : String) (ns : List String)
    (es : List (String × String)) (a n : String) (pa pn : Pos)
    (hmode : mode = "top-center" ∨ mode = "center-left")
    (_hp : parse input = .ok (ns, es))
    (hact : isActor a = true) (hmem : a ∈ ns) (hnact : isActor n = false)
    (hga : dictGet? (calculate_tree_positions ns es mode (5/2) 1 2) a = some pa)
    (hgn : dictGet? (calculate_tree_positions ns es mode (5/2) 1 2) n = some pn) :
    (if mode = "top-center" then pa.2 = 0 else pa.1 = 0) ∧ pa ≠ pn := by
  rcases hmode with rfl | rfl
  · rw [ctp_top_eq] at hga hgn
    obtain ⟨j, hj⟩ := actor_get_generic hact hmem hga
    obtain ⟨ℓ, len, i, hℓ, hi⟩ := grouped_get_generic hnact hgn
    have hpa2 : pa.2 = 0 := by rw [hj]
    have hpn2 : pn.2 = -(ℓ : ℚ) * (1 * 2) := by rw [hi]
    refine ⟨by rw [if_pos rfl]; exact hpa2, ?_⟩
    intro hc
    rw [hc] at hpa2
    rw [hpa2] at hpn2
    have hcast : (1 : ℚ) ≤ (ℓ : ℚ) := by exact_mod_cast hℓ
    nlinarith
  · rw [ctp_left_eq] at hga hgn
    obtain ⟨j, hj⟩ := actor_get_generic hact hmem hga
    obtain ⟨ℓ, len, i, hℓ, hi⟩ := grouped_get_generic hnact hgn
    have hpa1 : pa.1 = 0 := by rw [hj]
    have hpn1 : pn.1 = (ℓ : ℚ) * (5 / 2 * 2) := by rw [hi]
    refine ⟨by rw [if_neg (by decide)]; exact hpa1, ?_⟩
    intro hc
    rw [hc] at hpa1
    rw [hpa1] at hpn1
    have hcast : (1 : ℚ) ≤ (ℓ : ℚ) := by exact_mod_cast hℓ
    nlinarith

theorem cast_mul_ne {j1 j2 : Nat} {s : ℚ} (hs : 0 < s) (hne : j1 ≠ j2) :
    (j1 : ℚ) * s ≠ (j2 : ℚ) * s := by
  intro hc
  have h := mul_right_cancel₀ (ne_of_gt hs) hc
  exact hne (Nat.cast_injective h)

/-- A node holding a merged level is in the node list, provided every edge
endpoint is (as the parser guarantees). -/
theorem level_node_mem_nodes {nodes : List String} {edges : List (String × String)}
    {n : String} {ℓ : Nat}
    (hend : ∀ e ∈ edges, e.1 ∈ nodes ∧ e.2 ∈ nodes)
    (h : dictGet? (mergedLevels (nodes.filter isActor) edges) n = some ℓ) : n ∈ nodes := by
  have hk : n ∈ keysOf (mergedLevels (nodes.filter isActor) edges) := by
    rw [← keyMem_iff_keys, ← dictGet?_isSome_iff, h]
    rfl
  rcases mem_keys_mergedLevels.mp hk with ⟨a, ha, _, hsp⟩
  have hre : Reaches edges a n := mem_keys_sssp_iff.mp hsp
  rcases Relation.ReflTransGen.cases_tail hre with he | ⟨c, _, hc⟩
  · rw [he]
    exact (List.mem_filter.mp ha).1
  · exact (hend (c, n) hc).2

/-- Mode-generic core of the no-overlap property: two distinct nodes with the
same merged level never share a coordinate, given per-row injective coordinate
functions and an actor row disjoint from every level row. -/
theorem distinct_positions_generic {nodes : List String} {edges : List (String × String)}
    {coordA : Nat → Pos} {coordOf : Nat → ℚ → Nat → Pos} {n1 n2 : String} {ℓ : Nat}
    {p1 p2 : Pos}
    (hnodup : nodes.Nodup)
    (_hend : ∀ e ∈ edges, e.1 ∈ nodes ∧ e.2 ∈ nodes)
    (hinjA : ∀ j1 j2 : Nat, j1 ≠ j2 → coordA j1 ≠ coordA j2)
    (hinjO : ∀ (ℓ' : Nat) (len : ℚ) (j1 j2 : Nat), j1 ≠ j2 →
      coordOf ℓ' len j1 ≠ coordOf ℓ' len j2)
    (hAO : ∀ (j ℓ' : Nat) (len : ℚ) (i : Nat), 1 ≤ ℓ' → coordA j ≠ coordOf ℓ' len i)
    (hne : n1 ≠ n2)
    (h1 : dictGet? (mergedLevels (nodes.filter isActor) edges) n1 = some ℓ)
    (h2 : dictGet? (mergedLevels (nodes.filter isActor) edges) n2 = some ℓ)
    (hg1 : dictGet? (placeGroups (placeRow coordA [] (pySorted (nodes.filter isActor)) 0)
      coordOf (groupByLevel (mergedLevels (nodes.filter isActor) edges)
        (placeRow coordA [] (pySorted (nodes.filter isActor)) 0))) n1 = some p1)
    (hg2 : dictGet? (placeGroups (placeRow coordA [] (pySorted (nodes.filter isActor)) 0)
      coordOf (groupByLevel (mergedLevels (nodes.filter isActor) edges)
        (placeRow coordA [] (pySorted (nodes.filter isActor)) 0))) n2 = some p2) :
    p1 ≠ p2 := by
  obtain ⟨c1, c2, c3, _, c5⟩ :=
    @groupByLevel_inv (mergedLevels (nodes.filter isActor) edges)
      (placeRow coordA [] (pySorted (nodes.filter isActor)) 0)
      nodup_keys_mergedLevels
  have hsorted : (pySorted (nodes.filter isActor)).Nodup :=
    nodup_pySorted (List.Nodup.filter _ hnodup)
  have hf : ∀ g ∈ groupByLevel (mergedLevels (nodes.filter isActor) edges)
      (placeRow coordA [] (pySorted (nodes.filter isActor)) 0),
      ∀ m ∈ g.2, m ∉ keysOf (placeRow coordA [] (pySorted (nodes.filter isActor)) 0) := by
    intro g hg m hm hc
    obtain ⟨_, hkm⟩ := c5 g hg m hm
    rw [← keyMem_iff_keys, hkm] at hc
    exact absurd hc (by simp)
  have hchar : ∀ {n : String} {p : Pos},
      dictGet? (placeGroups (placeRow coordA [] (pySorted (nodes.filter isActor)) 0)
        coordOf (groupByLevel (mergedLevels (nodes.filter isActor) edges)
          (placeRow coordA [] (pySorted (nodes.filter isActor)) 0))) n = some p ↔
      (dictGet? (placeRow coordA [] (pySorted (nodes.filter isActor)) 0) n = some p ∨
        ∃ g ∈ groupByLevel (mergedLevels (nodes.filter isActor) edges)
          (placeRow coordA [] (pySorted (nodes.filter isActor)) 0),
          ∃ j, g.2.get? j = some n ∧ p = coordOf g.1 (g.2.length : ℚ) j) := by
    intro n p
    exact placeGroups_get_fresh c2 hf c3
  have hrowchar : ∀ {n : String} {p : Pos},
      dictGet? (placeRow coordA [] (pySorted (nodes.filter isActor)) 0) n = some p →
      ∃ j, (pySorted (nodes.filter isActor)).get? j = some n ∧ p = coordA j := by
    intro n p hp
    rcases (placeRow_get_fresh hsorted (by simp [keysOf])).mp hp with hnone | ⟨j, hj, hpe⟩
    · exact absurd hnone (by simp [dictGet?])
    · exact ⟨j, hj, by simpa using hpe⟩
  have hglevel : ∀ {n : String} {g : Nat × List String},
      g ∈ groupByLevel (mergedLevels (nodes.filter isActor) edges)
        (placeRow coordA [] (pySorted (nodes.filter isActor)) 0) → n ∈ g.2 →
      dictGet? (mergedLevels (nodes.filter isActor) edges) n = some ℓ → g.1 = ℓ := by
    intro n g hg hn hlev
    obtain ⟨hml, _⟩ := c5 g hg n hn
    have := (dictGet?_some_iff_mem nodup_keys_mergedLevels).mp hlev
    have hget2 : dictGet? (mergedLevels (nodes.filter isActor) edges) n = some g.1 :=
      (dictGet?_some_iff_mem nodup_keys_mergedLevels).mpr hml
    rw [hlev] at hget2
    exact (Option.some_inj.mp hget2).symm
  rcases hchar.mp hg1 with hr1 | ⟨g1, hgm1, j1, hj1, hp1⟩
  · -- n1 taken from the actor row
    rcases hrowchar hr1 with ⟨j1, hj1, hp1⟩
    rcases hchar.mp hg2 with hr2 | ⟨g2, hgm2, j2, hj2, hp2⟩
    · rcases hrowchar hr2 with ⟨j2, hj2, hp2⟩
      have hjne : j1 ≠ j2 := by
        intro hc
        rw [hc, hj2] at hj1
        exact hne (Option.some_inj.mp hj1).symm
      rw [hp1, hp2]
      exact hinjA j1 j2 hjne
    · have hl2 : g2.1 = ℓ := hglevel hgm2 (List.get?_mem hj2) h2
      rw [hp1, hp2]
      refine hAO j1 g2.1 _ j2 ?_
      refine grouped_level_pos hgm2 ?_
      intro hc
      rw [hc] at hj2
      exact absurd hj2 (by simp)
  · rcases hchar.mp hg2 with hr2 | ⟨g2, hgm2, j2, hj2, hp2⟩
    · rcases hrowchar hr2 with ⟨j2, hj2, hp2⟩
      rw [hp1, hp2]
      refine Ne.symm (hAO j2 g1.1 _ j1 ?_)
      refine grouped_level_pos hgm1 ?_
      intro hc
      rw [hc] at hj1
      exact absurd hj1 (by simp)
    · -- both level-grouped: same level forces the same group
      have hl1 : g1.1 = ℓ := hglevel hgm1 (List.get?_mem hj1) h1
      have hl2 : g2.1 = ℓ := hglevel hgm2 (List.get?_mem hj2) h2
      have hm1 : (ℓ, g1.2) ∈ groupByLevel (mergedLevels (nodes.filter isActor) edges)
          (placeRow coordA [] (pySorted (nodes.filter isActor)) 0) := by
        rw [← hl1]
        exact hgm1
      have hm2 : (ℓ, g2.2) ∈ groupByLevel (mergedLevels (nodes.filter isActor) edges)
          (placeRow coordA [] (pySorted (nodes.filter isActor)) 0) := by
        rw [← hl2]
        exact hgm2
      have hlst : g1.2 = g2.2 := eq_of_mem_nodup_groupKeys c1 hm1 hm2
      have hjne : j1 ≠ j2 := by
        intro hc
        rw [hc] at hj1
        rw [hlst, hj2] at hj1
        exact hne (Option.some_inj.mp hj1).symm
      rw [hp1, hp2, hl1, hl2, hlst]
      exact hinjO ℓ _ j1 j2 hjne

/-- **C7.** With positive width, height and spacing factor and either documented
axis mode, no two distinct nodes assigned the same computed breadth-first level
receive an identical `(x, y)` coordinate from the position solver. -/
theorem C7_no_overlap_within_level (input mode : String) (ns : List String)
    (es : List (String × String)) (w h sf : ℚ) (n1 n2 : String) (ℓ : Nat) (p1 p2 : Pos)
    (hmode : mode = "top-center" ∨ mode = "center-left")
    (hw : 0 < w) (hh : 0 < h) (hs : 0 < sf)
    (hp : parse input = .ok (ns, es))
    (hne : n1 ≠ n2)
    (h1 : dictGet? (mergedLevels (ns.filter isActor) es) n1 = some ℓ)
    (h2 : dictGet? (mergedLevels (ns.filter isActor) es) n2 = some ℓ)
    (hg1 : dictGet? (calculate_tree_positions ns es mode w h sf) n1 = some p1)
    (hg2 : dictGet? (calculate_tree_positions ns es mode w h sf) n2 = some p2) :
    p1 ≠ p2 := by
  obtain ⟨hnodup, hend, _, _⟩ := parse_ok_inv hp
  have hxs : 0 < w * sf := mul_pos hw hs
  have hys : 0 < h * sf := mul_pos hh hs
  rcases hmode with rfl | rfl
  · rw [ctp_top_eq] at hg1 hg2
    refine distinct_positions_generic hnodup hend ?_ ?_ ?_ hne h1 h2 hg1 hg2
    · intro j1 j2 hj hc
      have := congrArg Prod.fst hc
      simp only at this
      exact cast_mul_ne hxs hj (by linarith)
    · intro ℓ' len j1 j2 hj hc
      have := congrArg Prod.fst hc
      simp only at this
      exact cast_mul_ne hxs hj (by linarith)
    · intro j ℓ' len i hℓ hc
      have := congrArg Prod.snd hc
      simp only at this
      have hcast : (1 : ℚ) ≤ (ℓ' : ℚ) := by exact_mod_cast hℓ
      nlinarith
  · rw [ctp_left_eq] at hg1 hg2
    refine distinct_positions_generic hnodup hend ?_ ?_ ?_ hne h1 h2 hg1 hg2
    · intro j1 j2 hj hc
      have := congrArg Prod.snd hc
      simp only at this
      have := neg_injective (by linarith : -((j1 : ℚ) * (h * sf)) = -((j2 : ℚ) * (h * sf)))
      exact cast_mul_ne hys hj this
    · intro ℓ' len j1 j2 hj hc
      have := congrArg Prod.snd hc
      simp only at this
      refine cast_mul_ne hys hj ?_
      linarith
    · intro j ℓ' len i hℓ hc
      have := congrArg Prod.fst hc
      simp only at this
      have hcast : (1 : ℚ) ≤ (ℓ' : ℚ) := by exact_mod_cast hℓ
      nlinarith

/-! Concrete evaluation of the layout on the witness input
`"<<A>> P -> U\n<<A>> P -> V"` (top-center, default spacing). -/

theorem witnessW_groups : groupByLevel
    (mergedLevels (["<<A>> P", "U", "V"].filter isActor) [("<<A>> P", "U"), ("<<A>> P", "V")])
    (placeRow (fun i => ((i : ℚ) * (5/2 * 2) -
      (((["<<A>> P", "U", "V"].filter isActor).length : ℚ) - 1) * (5/2 * 2) / 2, 0))
      [] (pySorted (["<<A>> P", "U", "V"].filter isActor)) 0) = [(1, ["U", "V"])] := by
  decide

theorem witnessW_levels :
    mergedLevels (["<<A>> P", "U", "V"].filter isActor) [("<<A>> P", "U"), ("<<A>> P", "V")] =
      [("<<A>> P", 0), ("U", 1), ("V", 1)] := by
  decide

theorem witnessW_getU : dictGet? (calculate_tree_positions ["<<A>> P", "U", "V"]
    [("<<A>> P", "U"), ("<<A>> P", "V")] "top-center" (5/2) 1 2) "U" = some (-5/2, -2) := by
  rw [ctp_top_eq, witnessW_groups, placeGroups_cons, placeGroups_nil, placeRow_cons,
    placeRow_cons, placeRow_nil, dictGet?_insert, if_neg (by decide), dictGet?_insert,
    if_pos rfl]
  norm_num

theorem witnessW_getV : dictGet? (calculate_tree_positions ["<<A>> P", "U", "V"]
    [("<<A>> P", "U"), ("<<A>> P", "V")] "top-center" (5/2) 1 2) "V" = some (5/2, -2) := by
  rw [ctp_top_eq, witnessW_groups, placeGroups_cons, placeGroups_nil, placeRow_cons,
    placeRow_cons, placeRow_nil, dictGet?_insert, if_pos rfl]
  norm_num

theorem witnessW_getP : dictGet? (calculate_tree_positions ["<<A>> P", "U", "V"]
    [("<<A>> P", "U"), ("<<A>> P", "V")] "top-center" (5/2) 1 2) "<<A>> P" = some (0, 0) := by
  rw [ctp_top_eq, witnessW_groups, placeGroups_cons, placeGroups_nil, placeRow_cons,
    placeRow_cons, placeRow_nil, dictGet?_insert, if_neg (by decide), dictGet?_insert,
    if_neg (by decide)]
  rw [show pySorted (["<<A>> P", "U", "V"].filter isActor) = ["<<A>> P"] from by decide]
  rw [placeRow_cons, placeRow_nil, dictGet?_insert, if_pos rfl,
    show (List.filter isActor ["<<A>> P", "U", "V"]).length = 1 from by decide]
  norm_num

/-- Witness for C6: on `"<<A>> P -> U\n<<A>> P -> V"` in top-center mode, the actor
sits at `(0, 0)` on the actor axis and its coordinate differs from the use case
`U` at `(-5/2, -2)`. -/
theorem C6_witness :
    (if ("top-center" : String) = "top-center" then ((0 : ℚ), (0 : ℚ)).2 = 0
      else ((0 : ℚ), (0 : ℚ)).1 = 0) ∧
    ((0 : ℚ), (0 : ℚ)) ≠ ((-5/2 : ℚ), (-2 : ℚ)) :=
  C6_actor_axis_separation "<<A>> P -> U\n<<A>> P -> V" "top-center"
    ["<<A>> P", "U", "V"] [("<<A>> P", "U"), ("<<A>> P", "V")] "<<A>> P" "U"
    (0, 0) (-5/2, -2) (Or.inl rfl)
    (by decide) (by decide) (by decide) (by decide) witnessW_getP witnessW_getU

/-- Witness for C7: on the same input, `U` and `V` share level 1 but get the
distinct coordinates `(-5/2, -2)` and `(5/2, -2)`. -/
theorem C7_witness : ((-5/2 : ℚ), (-2 : ℚ)) ≠ ((5/2 : ℚ), (-2 : ℚ)) :=
  C7_no_overlap_within_level "<<A>> P -> U\n<<A>> P -> V" "top-center"
    ["<<A>> P", "U", "V"] [("<<A>> P", "U"), ("<<A>> P", "V")] (5/2) 1 2 "U" "V" 1
    (-5/2, -2) (5/2, -2) (Or.inl rfl)
    (by norm_num) (by norm_num) (by norm_num) (by decide) (by decide)
    (by rw [witnessW_levels]; decide) (by rw [witnessW_levels]; decide)
    witnessW_getU witnessW_getV

/-- **C4.** For every parsed node set and edge list and either documented axis
mode, a node of the node set receives exactly one `(x, y)` position iff it is an
actor or reachable from some actor; in particular a bare standalone non-actor
node gets none. -/
theorem C4_position_iff_actor_or_reachable (input mode : String) (ns : List String)
    (es : List (String × String)) (w h sf : ℚ) (n : String)
    (hmode : mode = "top-center" ∨ mode = "center-left")
    (_hp : parse input = .ok (ns, es)) (hn : n ∈ ns) :
    countKey (calculate_tree_positions ns es mode w h sf) n = 1 ↔
      (isActor n = true ∨ ∃ a ∈ ns, isActor a = true ∧ Reaches es a n) := by
  rcases hmode with rfl | rfl
  · rw [ctp_top_eq]
    have hiff : keyMem (placeGroups
        (placeRow (fun i => ((i : ℚ) * (w * sf) -
          (((ns.filter isActor).length : ℚ) - 1) * (w * sf) / 2, 0))
          [] (pySorted (ns.filter isActor)) 0)
        (fun ℓ len i => ((i : ℚ) * (w * sf) - (len - 1) * (w * sf) / 2, -(ℓ : ℚ) * (h * sf)))
        (groupByLevel (mergedLevels (ns.filter isActor) es)
          (placeRow (fun i => ((i : ℚ) * (w * sf) -
            (((ns.filter isActor).length : ℚ) - 1) * (w * sf) / 2, 0))
            [] (pySorted (ns.filter isActor)) 0))) n = true ↔
        (isActor n = true ∨ ∃ a ∈ ns, isActor a = true ∧ Reaches es a n) := by
      rw [keyMem_iff_keys, mem_keys_ctp_generic]
      constructor
      · rintro (⟨h1, _⟩ | h2)
        · exact Or.inl h1
        · exact Or.inr h2
      · rintro (h1 | h2)
        · exact Or.inl ⟨h1, hn⟩
        · exact Or.inr h2
    rw [countKey_eq_ite (nodup_keys_placeGroups (nodup_keys_placeRow (by simp [keysOf])))]
    constructor
    · intro h1
      refine hiff.mp ?_
      cases hb : keyMem _ n
      · rw [hb] at h1
        exact absurd h1 (by simp)
      · rfl
    · intro h1
      rw [hiff.mpr h1]
      rfl
  · rw [ctp_left_eq]
    have hiff : keyMem (placeGroups
        (placeRow (fun i => (0, -(i : ℚ) * (h * sf))) [] (pySorted (ns.filter isActor)) 0)
        (fun ℓ len i => ((ℓ : ℚ) * (w * sf), -(i : ℚ) * (h * sf) + (len - 1) * (h * sf) / 2))
        (groupByLevel (mergedLevels (ns.filter isActor) es)
          (placeRow (fun i => (0, -(i : ℚ) * (h * sf)))
            [] (pySorted (ns.filter isActor)) 0))) n = true ↔
        (isActor n = true ∨ ∃ a ∈ ns, isActor a = true ∧ Reaches es a n) := by
      rw [keyMem_iff_keys, mem_keys_ctp_generic]
      constructor
      · rintro (⟨h1, _⟩ | h2)
        · exact Or.inl h1
        · exact Or.inr h2
      · rintro (h1 | h2)
        · exact Or.inl ⟨h1, hn⟩
        · exact Or.inr h2
    rw [countKey_eq_ite (nodup_keys_placeGroups (nodup_keys_placeRow (by simp [keysOf])))]
    constructor
    · intro h1
      refine hiff.mp ?_
      cases hb : keyMem _ n
      · rw [hb] at h1
        exact absurd h1 (by simp)
      · rfl
    · intro h1
      rw [hiff.mpr h1]
      rfl

/-- Witness for C4: on `"<<Actor>> U -> A\nA -> B\nStandaloneNote"` the node `B`
is reachable from the actor, so it gets exactly one position. -/
theorem C4_witness :
    countKey (calculate_tree_positions ["<<Actor>> U", "A", "B", "StandaloneNote"]
      [("<<Actor>> U", "A"), ("A", "B")] "top-center" (5/2) 1 2) "B" = 1 ↔
      (isActor "B" = true ∨ ∃ a ∈ ["<<Actor>> U", "A", "B", "StandaloneNote"],
        isActor a = true ∧
          Reaches [("<<Actor>> U", "A"), ("A", "B")] a "B") :=
  C4_position_iff_actor_or_reachable "<<Actor>> U -> A\nA -> B\nStandaloneNote"
    "top-center" ["<<Actor>> U", "A", "B", "StandaloneNote"]
    [("<<Actor>> U", "A"), ("A", "B")] (5/2) 1 2 "B" (Or.inl rfl) (by decide) (by decide)

/-- **C10.** Any `actor_position` other than the two documented modes leaves the
position dict empty: no node at all receives a position. -/
theorem C10_unknown_mode_empty (ns : List String) (es : List (String × String))
    (mode : String) (w h sf : ℚ)
    (h1 : mode ≠ "top-center") (h2 : mode ≠ "center-left") :
    calculate_tree_positions ns es mode w h sf = [] := by
  unfold calculate_tree_positions
  rw [if_neg (by simpa using h1), if_neg (by simpa using h2)]

/-- Witness for C10 at the unknown mode string `"diagonal"`. -/
theorem C10_witness :
    calculate_tree_positions ["<<Actor>> A", "B"] [("<<Actor>> A", "B")] "diagonal"
      (5/2) 1 2 = [] :=
  C10_unknown_mode_empty ["<<Actor>> A", "B"] [("<<Actor>> A", "B")] "diagonal"
    (5/2) 1 2 (by decide) (by decide)

/-- **C8.** Every edge returned by the parser has both endpoints in the returned
node set. -/
theorem C8_edge_endpoints_registered (input : String) (ns : List String)
    (es : List (String × String)) (e : String × String)
    (hp : parse input = .ok (ns, es)) (he : e ∈ es) :
    e.1 ∈ ns ∧ e.2 ∈ ns :=
  (parse_ok_inv hp).2.1 e he

/-- Witness for C8 on `"A -> B\nC"`. -/
theorem C8_witness :
    ("A", "B").1 ∈ ["A", "B", "C"] ∧ ("A", "B").2 ∈ ["A", "B", "C"] :=
  C8_edge_endpoints_registered "A -> B\nC" ["A", "B", "C"] [("A", "B")] ("A", "B")
    (by decide) (by decide)

/-- **C9 counterexample.** An interior blank line is not ignored: parsing
`"A\n\nB"` registers the empty string as a node, so an empty-string node does
appear in the returned node set. -/
theorem C9_counterexample :
    parse "A\n\nB" = .ok (["A", "", "B"], []) ∧ "" ∈ ["A", "", "B"] := by
  constructor
  · decide
  · decide

/-- **C9 amended.** Only leading and trailing blank lines are ignored (by the
outer strip). An interior blank line registers no edge — the edge list length is
exactly the number of marker lines — but it does register the empty string as a
node. -/
theorem C9_blank_line_amended (input line : String) (ns : List String)
    (es : List (String × String))
    (hp : parse input = .ok (ns, es))
    (hline : line ∈ (splitNl (pyStrip input).data).map String.mk)
    (hnm : (splitArrow line.data).length = 1) (hblank : pyStrip line = "") :
    "" ∈ ns ∧ es.length = (((splitNl (pyStrip input).data).map String.mk).filter
      (fun l => (splitArrow l.data).length != 1)).length := by
  obtain ⟨_, _, c5, c6⟩ := parse_ok_inv hp
  exact ⟨hblank ▸ c5 line hline hnm, c6⟩

/-- Witness for the amended C9 on `"A\n\nB"` and its interior blank line. -/
theorem C9_witness :
    "" ∈ ["A", "", "B"] ∧
    ([] : List (String × String)).length =
      (((splitNl (pyStrip "A\n\nB").data).map String.mk).filter
        (fun l => (splitArrow l.data).length != 1)).length :=
  C9_blank_line_amended "A\n\nB" "" ["A", "", "B"] [] (by decide) (by decide)
    (by decide) (by decide)

/-- **C2.** On the empty input the code does not report an EmptyGraph validation
error: the parser registers the empty-string node, the layout returns an empty
position dict, and the pipeline then crashes in the axis-limit computation with
Python's `ValueError` from `min` on an empty sequence. -/
theorem C2_empty_input_crashes_in_axis_limits :
    parse "" = .ok ([""], []) ∧
    calculate_tree_positions [""] [] "top-center" (5/2) 1 2 = [] ∧
    generate_use_case_diagram "" "top-center" =
      .error "ValueError: min() arg is an empty sequence" := by
  refine ⟨by decide, by decide, by decide⟩

/-- **C3 counterexample.** In `<<A>> One -> X, <<B>> Two -> Y, Y -> X` the node
`X` is reachable from actor `<<A>> One` at distance 1 and from actor `<<B>> Two`
at distance 2, yet the merged level map records 2 — the value of the last actor
processed — not the minimum 1. -/
theorem C3_counterexample :
    dictGet? (sssp [("<<A>> One", "X"), ("<<B>> Two", "Y"), ("Y", "X")] "<<A>> One") "X"
      = some 1 ∧
    dictGet? (sssp [("<<A>> One", "X"), ("<<B>> Two", "Y"), ("Y", "X")] "<<B>> Two") "X"
      = some 2 ∧
    dictGet? (mergedLevels ["<<A>> One", "<<B>> Two"]
      [("<<A>> One", "X"), ("<<B>> Two", "Y"), ("Y", "X")]) "X" = some 2 := by
  refine ⟨by decide, by decide, by decide⟩

/-- **C3 amended.** The merged level map is a `dict.update` overwrite: for every
node its merged entry equals the BFS distance recorded by the **last** actor (in
actor iteration order) that reaches it, not the minimum over all actors. When the
distances agree — e.g. a use case directly connected to two actors, at distance 1
from each — the node still receives level 1 and exactly one position, and both
actors are placed. -/
theorem C3_merged_levels_last_writer :
    (∀ (actors : List String) (edges : List (String × String)) (n : String),
      dictGet? (mergedLevels actors edges) n = lastLevelOf actors edges n) ∧
    dictGet? (mergedLevels ["<<A>> R", "<<B>> S"]
      [("<<A>> R", "Shared"), ("<<B>> S", "Shared")]) "Shared" = some 1 ∧
    countKey (calculate_tree_positions ["<<A>> R", "<<B>> S", "Shared"]
      [("<<A>> R", "Shared"), ("<<B>> S", "Shared")] "top-center" (5/2) 1 2) "Shared" = 1 ∧
    countKey (calculate_tree_positions ["<<A>> R", "<<B>> S", "Shared"]
      [("<<A>> R", "Shared"), ("<<B>> S", "Shared")] "top-center" (5/2) 1 2) "<<A>> R" = 1 ∧
    countKey (calculate_tree_positions ["<<A>> R", "<<B>> S", "Shared"]
      [("<<A>> R", "Shared"), ("<<B>> S", "Shared")] "top-center" (5/2) 1 2) "<<B>> S" = 1 :=
  ⟨fun _ _ _ => mergedLevels_get, by decide, by decide, by decide, by decide⟩

/-- **C1.** (Modelled from the spec: the styled-edge parser variant is not under
`src/`.) A line containing the dashed marker `-->` is parsed as a Dashed edge —
the dashed check precedes the solid one, the line is split at the first marker
occurrence and both endpoints are stripped — never as a Solid edge with leftover
marker characters; and the two-line scenario yields exactly the three nodes
`<<Actor>> User`, `Click`, `Starts` and two edges, the first Solid, the second
Dashed. -/
theorem C1_dashed_marker_precedence :
    (∀ line : String, ((splitDash line.data).length != 1) = true →
      (∀ s t : String, parseStyledLine line ≠ .arrow s t .solid) ∧
      (∃ a b : String, parseStyledLine line = .arrow a b .dashed)) ∧
    parse_styled "<<Actor>> User -> Click\nClick --> Starts" =
      (["<<Actor>> User", "Click", "Starts"],
        [("<<Actor>> User", "Click", .solid), ("Click", "Starts", .dashed)]) := by
  constructor
  · intro line hl
    constructor
    · intro s t hc
      unfold parseStyledLine at hc
      rw [if_pos hl] at hc
      exact absurd hc (by simp)
    · unfold parseStyledLine
      rw [if_pos hl]
      exact ⟨_, _, rfl⟩
  · decide

/-- Concrete evaluation for C5: layout of the same parsed graph under the two
set-enumeration orders. -/
theorem c5_groups_order1 : groupByLevel
    (mergedLevels (["<<A>> One", "X", "<<B>> Two", "Y"].filter isActor)
      [("<<A>> One", "X"), ("<<B>> Two", "Y"), ("Y", "X")])
    (placeRow (fun i => ((i : ℚ) * (5/2 * 2) -
      (((["<<A>> One", "X", "<<B>> Two", "Y"].filter isActor).length : ℚ) - 1)
        * (5/2 * 2) / 2, 0))
      [] (pySorted (["<<A>> One", "X", "<<B>> Two", "Y"].filter isActor)) 0) =
    [(2, ["X"]), (1, ["Y"])] := by
  decide

theorem c5_groups_order2 : groupByLevel
    (mergedLevels (["<<B>> Two", "X", "<<A>> One", "Y"].filter isActor)
      [("<<A>> One", "X"), ("<<B>> Two", "Y"), ("Y", "X")])
    (placeRow (fun i => ((i : ℚ) * (5/2 * 2) -
      (((["<<B>> Two", "X", "<<A>> One", "Y"].filter isActor).length : ℚ) - 1)
        * (5/2 * 2) / 2, 0))
      [] (pySorted (["<<B>> Two", "X", "<<A>> One", "Y"].filter isActor)) 0) =
    [(1, ["Y", "X"])] := by
  decide

theorem c5_getX_order1 : dictGet? (calculate_tree_positions
    ["<<A>> One", "X", "<<B>> Two", "Y"]
    [("<<A>> One", "X"), ("<<B>> Two", "Y"), ("Y", "X")] "top-center" (5/2) 1 2) "X" =
    some (0, -4) := by
  rw [ctp_top_eq, c5_groups_order1, placeGroups_cons, placeGroups_cons, placeGroups_nil,
    placeRow_cons, placeRow_nil, placeRow_cons, placeRow_nil,
    dictGet?_insert, if_neg (by decide), dictGet?_insert, if_pos rfl]
  norm_num

theorem c5_getX_order2 : dictGet? (calculate_tree_positions
    ["<<B>> Two", "X", "<<A>> One", "Y"]
    [("<<A>> One", "X"), ("<<B>> Two", "Y"), ("Y", "X")] "top-center" (5/2) 1 2) "X" =
    some (5/2, -2) := by
  rw [ctp_top_eq, c5_groups_order2, placeGroups_cons, placeGroups_nil,
    placeRow_cons, placeRow_cons, placeRow_nil,
    dictGet?_insert, if_pos rfl]
  norm_num

/-- **C5 counterexample.** The parsed node set of
`<<A>> One -> X, <<B>> Two -> Y, Y -> X` admits two enumeration orders (Python
sets do not fix one across processes) under which the layout of the very same
parsed graph gives `X` different positions, so parse+layout is not a function of
the input text alone. -/
theorem C5_counterexample :
    parse "<<A>> One -> X\n<<B>> Two -> Y\nY -> X" =
      .ok (["<<A>> One", "X", "<<B>> Two", "Y"],
        [("<<A>> One", "X"), ("<<B>> Two", "Y"), ("Y", "X")]) ∧
    (["<<A>> One", "X", "<<B>> Two", "Y"] : List String).Perm
      ["<<B>> Two", "X", "<<A>> One", "Y"] ∧
    dictGet? (calculate_tree_positions ["<<A>> One", "X", "<<B>> Two", "Y"]
      [("<<A>> One", "X"), ("<<B>> Two", "Y"), ("Y", "X")] "top-center" (5/2) 1 2) "X" ≠
    dictGet? (calculate_tree_positions ["<<B>> Two", "X", "<<A>> One", "Y"]
      [("<<A>> One", "X"), ("<<B>> Two", "Y"), ("Y", "X")] "top-center" (5/2) 1 2) "X" := by
  refine ⟨by decide, by decide, ?_⟩
  rw [c5_getX_order1, c5_getX_order2]
  intro hc
  have h2 := congrArg Prod.snd (Option.some_inj.mp hc)
  norm_num at h2

/-- **C5 amended.** Parse+layout is deterministic up to the enumeration order of
the parsed node set: the layout depends on the node list only through its actor
sublist, so any two enumerations agreeing on the actors (in particular, the same
enumeration twice, as within one Python process) yield identical position maps. -/
theorem C5_deterministic_given_actor_order (l1 l2 : List String)
    (edges : List (String × String)) (mode : String) (w h sf : ℚ)
    (hf : l1.filter isActor = l2.filter isActor) :
    calculate_tree_positions l1 edges mode w h sf =
      calculate_tree_positions l2 edges mode w h sf := by
  unfold calculate_tree_positions
  rw [hf]

/-- Witness for the amended C5: two node lists differing in a non-actor node but
with the same actor sublist get identical layouts. -/
theorem C5_witness :
    calculate_tree_positions ["<<A>> Q", "B"] [("<<A>> Q", "B")] "top-center" (5/2) 1 2 =
      calculate_tree_positions ["<<A>> Q", "C"] [("<<A>> Q", "B")] "top-center" (5/2) 1 2 :=
  C5_deterministic_given_actor_order ["<<A>> Q", "B"] ["<<A>> Q", "C"]
    [("<<A>> Q", "B")] "top-center" (5/2) 1 2 (by decide)
